import Mathlib

/-!
Verification of the subtitle-acquisition pipeline of the
`video-expert-analyzer` repository.

The Python sources `scripts/extract_subtitle_funasr.py` and
`scripts/fetch_bilibili_subtitle.py` are shallowly embedded below:
pure helpers become Lean functions on `List Char` / `ℚ` / `ℕ`, and the
effectful tiers (subprocess calls, OCR, ASR, cookie stores) are modelled
by explicit environment records whose fields give the outcome of each
external call, with `Except` marking calls that may raise.

Python `float` arithmetic is modelled two ways, stated at each definition:
exact rational arithmetic where the float operation is itself exact
(float `%`, float floor division, and arithmetic on integral doubles),
and a faithful IEEE-754 binary64 round-to-nearest-even model where a
float operation genuinely rounds: `pyDivD` / `pyMulD` (dyadic pairs over
ℕ) for the character-to-timestamp index mapping, and `fl64` (rounding on
ℚ) for the timestamp formatter's millisecond product
`(seconds % 1) * 1000`.
-/

/-! ## Small Python-flavoured utilities -/

/-- Whitespace test matching the characters removed by Python `str.strip()`
(ASCII whitespace; the subtitle texts involved contain no exotic spaces). -/
def isPySpace (c : Char) : Bool :=
  c == ' ' || c == '\t' || c == '\n' || c == '\r' || c == '\x0b' || c == '\x0c'

/-- Python `str.strip()` on a list of characters. -/
def pystrip (cs : List Char) : List Char :=
  ((cs.dropWhile isPySpace).reverse.dropWhile isPySpace).reverse

/-- Python `str.strip()` on a `String`. -/
def pystripS (s : String) : String :=
  String.mk (pystrip s.toList)

/-- Value of a decimal digit character ('0'..'9'). -/
def charVal (c : Char) : ℕ := c.toNat - 48

/-- Test for a decimal digit character. -/
def isDigitChar (c : Char) : Bool := 48 ≤ c.toNat && c.toNat ≤ 57

/-- Character for a decimal digit value below ten. -/
def digitChar (d : ℕ) : Char := Char.ofNat (48 + d)

/-- Left fold turning a digit string into a natural number
(leading zeros are harmless). -/
def foldVal (cs : List Char) : ℕ :=
  cs.foldl (fun a c => 10 * a + charVal c) 0

/-- Fuel-driven rendering of a natural number as decimal digits,
most significant first; `fuel ≥ number of digits` suffices. -/
def natCharsFuel : ℕ → ℕ → List Char
  | 0, _ => []
  | f + 1, n => if n < 10 then [digitChar n] else natCharsFuel f (n / 10) ++ [digitChar (n % 10)]

/-- Decimal rendering of a natural number (as Python `str(n)`). -/
def natChars (n : ℕ) : List Char := natCharsFuel (n + 1) n

/-- Zero left-padding to a minimum width, as Python format `{:0wd}`. -/
def padLeftZeros (w : ℕ) (cs : List Char) : List Char :=
  List.replicate (w - cs.length) '0' ++ cs

/-- Splitting a character list on a separator character, as Python
`str.split(sep)`; never returns an empty list of chunks. -/
def splitChar (sep : Char) : List Char → List (List Char)
  | [] => [[]]
  | c :: rest =>
    if c = sep then [] :: splitChar sep rest
    else
      match splitChar sep rest with
      | [] => [[c]]
      | h :: t => (c :: h) :: t

theorem splitChar_ne_nil (sep : Char) (l : List Char) : splitChar sep l ≠ [] := by
  induction l with
  | nil => simp [splitChar]
  | cons c rest ih =>
    simp only [splitChar]
    split
    · simp
    · split
      · simp
      · simp

theorem splitChar_of_not_mem {sep : Char} {l : List Char} (h : sep ∉ l) :
    splitChar sep l = [l] := by
  induction l with
  | nil => simp [splitChar]
  | cons c rest ih =>
    simp only [List.mem_cons, not_or] at h
    simp only [splitChar]
    rw [if_neg (fun hc => h.1 hc.symm), ih h.2]

theorem splitChar_append {sep : Char} {l1 : List Char} (l2 : List Char) (h : sep ∉ l1) :
    splitChar sep (l1 ++ sep :: l2) = l1 :: splitChar sep l2 := by
  induction l1 with
  | nil => simp [splitChar]
  | cons c rest ih =>
    simp only [List.mem_cons, not_or] at h
    simp only [List.cons_append, splitChar]
    rw [if_neg (fun hc => h.1 hc.symm)]
    simp only [List.append_eq]
    rw [ih h.2]

/-! ### Digit rendering round-trips through digit folding -/

theorem charVal_digitChar {d : ℕ} (h : d < 10) : charVal (digitChar d) = d := by
  interval_cases d <;> decide

theorem isDigitChar_digitChar {d : ℕ} (h : d < 10) : isDigitChar (digitChar d) = true := by
  interval_cases d <;> decide

theorem foldVal_from (a : ℕ) (cs : List Char) :
    cs.foldl (fun x c => 10 * x + charVal c) a = a * 10 ^ cs.length + foldVal cs := by
  induction cs generalizing a with
  | nil => simp [foldVal]
  | cons c rest ih =>
    simp only [List.foldl_cons, foldVal] at *
    rw [ih (10 * a + charVal c), ih (10 * 0 + charVal c)]
    simp only [List.length_cons, pow_succ]
    ring

theorem foldVal_append (l1 l2 : List Char) :
    foldVal (l1 ++ l2) = foldVal l1 * 10 ^ l2.length + foldVal l2 := by
  simp only [foldVal, List.foldl_append]
  exact foldVal_from _ l2

theorem natCharsFuel_spec {f n : ℕ} (h : n < 10 ^ f) (hf : 0 < f) :
    foldVal (natCharsFuel f n) = n ∧
      (natCharsFuel f n).all isDigitChar = true ∧ natCharsFuel f n ≠ [] := by
  induction f generalizing n with
  | zero => omega
  | succ f ih =>
    by_cases h10 : n < 10
    · refine ⟨?_, ?_, ?_⟩ <;>
        simp [natCharsFuel, h10, foldVal, charVal_digitChar h10, isDigitChar_digitChar h10]
    · have hf0 : 0 < f := by
        rcases Nat.eq_zero_or_pos f with hz | hp
        · exfalso; subst hz; simp at h; omega
        · exact hp
      have hdiv : n / 10 < 10 ^ f := by
        rw [Nat.div_lt_iff_lt_mul (by norm_num)]
        calc n < 10 ^ (f + 1) := h
        _ = 10 ^ f * 10 := by rw [pow_succ]
      obtain ⟨ihv, ihd, ihne⟩ := ih hdiv hf0
      have hmod : n % 10 < 10 := Nat.mod_lt _ (by omega)
      refine ⟨?_, ?_, ?_⟩
      · simp only [natCharsFuel, if_neg h10, foldVal_append]
        have hone : foldVal [digitChar (n % 10)] = n % 10 := by
          simp [foldVal, charVal_digitChar hmod]
        rw [ihv, hone]
        simp
        omega
      · simp only [natCharsFuel, if_neg h10, List.all_append]
        simp [ihd, isDigitChar_digitChar hmod]
      · simp [natCharsFuel, if_neg h10]

theorem natChars_spec (n : ℕ) :
    foldVal (natChars n) = n ∧ (natChars n).all isDigitChar = true ∧ natChars n ≠ [] := by
  have h1 : n < 10 ^ n := Nat.lt_pow_self (by norm_num) n
  have h : n < 10 ^ (n + 1) :=
    lt_of_lt_of_le h1 (Nat.pow_le_pow_right (by norm_num) (Nat.le_succ n))
  exact natCharsFuel_spec h (Nat.succ_pos n)

/-! ## Binary64 rounding on rationals

`format_timestamp` receives a Python float.  For a non-negative double
`q`, the expressions `q // 3600`, `q % 3600`, `(q % 3600) // 60`,
`q % 60` and `q % 1` are all exact (float `%` is `fmod`, whose result is
exactly representable, and CPython's float floor division corrects its
quotient to the exact floor), so those fields are modelled by exact
rational arithmetic.  The one rounded operation in the formatter is the
multiplication `(seconds % 1) * 1000`; `fl64` reproduces its
round-to-nearest-even at 53 significant bits on `ℚ` (normal range, which
covers every use below). -/

/-- Fuel-driven base-two logarithm on naturals. -/
def log2Fuel : ℕ → ℕ → ℕ
  | 0, _ => 0
  | f + 1, n => if n ≤ 1 then 0 else log2Fuel f (n / 2) + 1

/-- Base-two logarithm (floor) of a positive natural. -/
def natLog2 (n : ℕ) : ℕ := log2Fuel n n

theorem pow2_reduced (e : ℤ) : Nat.Coprime (2 ^ e.toNat) (2 ^ (-e).toNat) := by
  rcases le_or_lt 0 e with he | he
  · have h0 : (-e).toNat = 0 := by omega
    rw [h0, pow_zero]
    exact Nat.coprime_one_right _
  · have h0 : e.toNat = 0 := by omega
    rw [h0, pow_zero]
    exact Nat.coprime_one_left _

/-- Integer power of two in `ℚ`, built as a raw numerator/denominator pair
(natural powers of two, which the kernel evaluates fast). -/
def pow2 (e : ℤ) : ℚ :=
  { num := ((2 ^ e.toNat : ℕ) : ℤ)
    den := 2 ^ (-e).toNat
    den_nz := (Nat.pow_pos (by norm_num)).ne'
    reduced := by
      rw [Int.natAbs_ofNat]
      exact pow2_reduced e }

theorem pow2_def_div (e : ℤ) :
    pow2 e = ((2 ^ e.toNat : ℕ) : ℚ) / ((2 ^ (-e).toNat : ℕ) : ℚ) := by
  rw [pow2, Rat.mk'_eq_divInt, Rat.divInt_eq_div]
  push_cast
  ring

theorem pow2_eq_zpow (e : ℤ) : pow2 e = (2 : ℚ) ^ e := by
  rcases le_or_lt 0 e with he | he
  · have h2 : (-e).toNat = 0 := by omega
    have h1 : e = (e.toNat : ℤ) := by omega
    conv_rhs => rw [h1]
    rw [pow2_def_div, h2, zpow_natCast]
    push_cast
    simp
  · have h2 : e.toNat = 0 := by omega
    have h1 : e = -(((-e).toNat : ℤ)) := by omega
    conv_rhs => rw [h1]
    rw [pow2_def_div, h2, zpow_neg, zpow_natCast]
    push_cast
    simp

/-- Floor of the base-two logarithm of a positive rational: a first guess
from the numerator/denominator digit counts, corrected by direct
comparison. -/
def floorLog2 (q : ℚ) : ℤ :=
  let e0 : ℤ := (natLog2 q.num.natAbs : ℤ) - (natLog2 q.den : ℤ)
  if pow2 (e0 + 1) ≤ q then e0 + 1 else if q < pow2 e0 then e0 - 1 else e0

/-- Rounding of a positive rational to the nearest binary64 value (53
significant bits, ties to even); non-positive input maps to zero (only
zero occurs in the uses below). -/
def fl64 (x : ℚ) : ℚ :=
  if x ≤ 0 then 0
  else
    let e : ℤ := floorLog2 x
    let scaled : ℚ := x * pow2 (52 - e)
    let m0 : ℤ := ⌊scaled⌋
    let fr : ℚ := scaled - (m0 : ℚ)
    let m1 : ℤ :=
      if 1 / 2 < fr then m0 + 1
      else if fr < 1 / 2 then m0
      else if m0 % 2 = 0 then m0 else m0 + 1
    (m1 : ℚ) * pow2 (e - 52)

/-- Non-negative values representable as an IEEE binary64 float: an
integer significand below `2 ^ 53` scaled by a power of two (the
formatter's actual input domain). -/
def FloatVal (q : ℚ) : Prop := ∃ (m : ℕ) (e : ℤ), m < 2 ^ 53 ∧ q = (m : ℚ) * pow2 e

theorem pow2_pos (e : ℤ) : 0 < pow2 e := by
  rw [pow2_eq_zpow]
  exact zpow_pos (by norm_num) e

theorem pow2_add (a b : ℤ) : pow2 (a + b) = pow2 a * pow2 b := by
  simp only [pow2_eq_zpow]
  exact zpow_add₀ (by norm_num) a b

theorem pow2_le_pow2 {a b : ℤ} (h : a ≤ b) : pow2 a ≤ pow2 b := by
  simp only [pow2_eq_zpow]
  exact zpow_le_zpow_right₀ (by norm_num) h

theorem pow2_lt_pow2 {a b : ℤ} (h : a < b) : pow2 a < pow2 b := by
  simp only [pow2_eq_zpow]
  exact zpow_lt_zpow_right₀ (by norm_num) h

theorem pow2_natCast (n : ℕ) : pow2 (n : ℤ) = (2 : ℚ) ^ n := by
  rw [pow2_eq_zpow, zpow_natCast]

theorem pow2_neg_natCast (n : ℕ) : pow2 (-(n : ℤ)) = ((2 : ℚ) ^ n)⁻¹ := by
  rw [pow2_eq_zpow, zpow_neg, zpow_natCast]

theorem pow2_zero : pow2 0 = 1 := by
  rw [pow2_eq_zpow]
  norm_num

theorem pow2_of_nonneg {e : ℤ} (he : 0 ≤ e) : pow2 e = ((2 ^ e.toNat : ℕ) : ℚ) := by
  have h0 : (-e).toNat = 0 := by omega
  rw [pow2_def_div, h0, pow_zero]
  norm_num

theorem pow2_neg_nat (d : ℕ) : pow2 (-(d : ℤ)) = (((2 ^ d : ℕ)) : ℚ)⁻¹ := by
  rw [pow2_neg_natCast]
  norm_num

theorem log2Fuel_spec : ∀ (f n : ℕ), 1 ≤ n → n ≤ f →
    2 ^ log2Fuel f n ≤ n ∧ n < 2 ^ (log2Fuel f n + 1) := by
  intro f
  induction f with
  | zero => intro n h1 h2; omega
  | succ f ih =>
    intro n h1 h2
    by_cases hn : n ≤ 1
    · have : n = 1 := by omega
      subst this
      simp [log2Fuel]
    · have hn2 : 2 ≤ n := by omega
      have hdiv1 : 1 ≤ n / 2 := by omega
      have hdivf : n / 2 ≤ f := by omega
      obtain ⟨ihl, ihr⟩ := ih (n / 2) hdiv1 hdivf
      rw [log2Fuel, if_neg hn]
      constructor
      · have : 2 ^ (log2Fuel f (n / 2) + 1) = 2 * 2 ^ log2Fuel f (n / 2) := by ring
        rw [this]
        omega
      · have : 2 ^ (log2Fuel f (n / 2) + 1 + 1) = 2 * 2 ^ (log2Fuel f (n / 2) + 1) := by ring
        rw [this]
        omega

theorem natLog2_spec {n : ℕ} (h : 1 ≤ n) :
    2 ^ natLog2 n ≤ n ∧ n < 2 ^ (natLog2 n + 1) :=
  log2Fuel_spec n n h le_rfl

theorem intq_mul_pow2_nonneg {k : ℤ} (hk : 0 ≤ k) (e : ℤ) : (0 : ℚ) ≤ (k : ℚ) * pow2 e :=
  mul_nonneg (by exact_mod_cast hk) (pow2_pos e).le

theorem floorLog2_spec (x : ℚ) (hx : 0 < x) :
    pow2 (floorLog2 x) ≤ x ∧ x < pow2 (floorLog2 x + 1) := by
  have hnum : 0 < x.num := Rat.num_pos.mpr hx
  have ha : 1 ≤ x.num.natAbs := by omega
  have hb : 1 ≤ x.den := x.den_pos
  obtain ⟨ha1, ha2⟩ := natLog2_spec ha
  obtain ⟨hb1, hb2⟩ := natLog2_spec hb
  have hxnum : ((x.num.natAbs : ℚ)) = (x.num : ℚ) := by
    rw [Int.cast_natAbs]
    exact_mod_cast abs_of_nonneg hnum.le
  have hxab : x = (x.num.natAbs : ℚ) / (x.den : ℚ) := by
    rw [hxnum, Rat.num_div_den]
  have hbQ : (0 : ℚ) < (x.den : ℚ) := by exact_mod_cast hb
  have haQ1 : ((2 : ℚ) ^ natLog2 x.num.natAbs) ≤ (x.num.natAbs : ℚ) := by exact_mod_cast ha1
  have haQ2 : ((x.num.natAbs : ℚ)) < (2 : ℚ) ^ (natLog2 x.num.natAbs + 1) := by
    exact_mod_cast ha2
  have hbQ1 : ((2 : ℚ) ^ natLog2 x.den) ≤ (x.den : ℚ) := by exact_mod_cast hb1
  have hbQ2 : ((x.den : ℚ)) < (2 : ℚ) ^ (natLog2 x.den + 1) := by exact_mod_cast hb2
  have hlow : pow2 ((natLog2 x.num.natAbs : ℤ) - (natLog2 x.den : ℤ) - 1)
      < (x.num.natAbs : ℚ) / (x.den : ℚ) := by
    have heq : pow2 ((natLog2 x.num.natAbs : ℤ) - (natLog2 x.den : ℤ) - 1)
        = ((2 : ℚ) ^ natLog2 x.num.natAbs) / ((2 : ℚ) ^ (natLog2 x.den + 1)) := by
      rw [div_eq_mul_inv, ← pow2_natCast, ← pow2_neg_natCast, ← pow2_add]
      congr 1
      push_cast
      ring
    rw [heq, div_lt_div_iff (by positivity) hbQ]
    calc (2 : ℚ) ^ natLog2 x.num.natAbs * x.den
        ≤ (x.num.natAbs : ℚ) * x.den := by
          exact mul_le_mul_of_nonneg_right haQ1 hbQ.le
      _ < (x.num.natAbs : ℚ) * 2 ^ (natLog2 x.den + 1) := by
          have hap : (0 : ℚ) < (x.num.natAbs : ℚ) := by exact_mod_cast ha
          exact (mul_lt_mul_left hap).mpr hbQ2
  have hup : (x.num.natAbs : ℚ) / (x.den : ℚ)
      < pow2 ((natLog2 x.num.natAbs : ℤ) - (natLog2 x.den : ℤ) + 1) := by
    have heq : pow2 ((natLog2 x.num.natAbs : ℤ) - (natLog2 x.den : ℤ) + 1)
        = ((2 : ℚ) ^ (natLog2 x.num.natAbs + 1)) / ((2 : ℚ) ^ natLog2 x.den) := by
      rw [div_eq_mul_inv, ← pow2_natCast, ← pow2_neg_natCast, ← pow2_add]
      congr 1
      push_cast
      ring
    rw [heq, div_lt_div_iff hbQ (by positivity)]
    calc (x.num.natAbs : ℚ) * 2 ^ natLog2 x.den
        ≤ (x.num.natAbs : ℚ) * x.den := by
          have hap : (0 : ℚ) ≤ (x.num.natAbs : ℚ) := by positivity
          exact mul_le_mul_of_nonneg_left hbQ1 hap
      _ < (2 : ℚ) ^ (natLog2 x.num.natAbs + 1) * x.den := by
          exact (mul_lt_mul_right hbQ).mpr haQ2
  rw [← hxab] at hlow hup
  simp only [floorLog2]
  split_ifs with h1 h2
  · exact absurd h1 (not_le.mpr hup)
  · constructor
    · exact hlow.le
    · have hone : (natLog2 x.num.natAbs : ℤ) - (natLog2 x.den : ℤ) - 1 + 1
          = (natLog2 x.num.natAbs : ℤ) - (natLog2 x.den : ℤ) := by ring
      rw [hone]
      exact h2
  · exact ⟨not_lt.mp h2, not_le.mp h1⟩

theorem fl64_nonneg (x : ℚ) : 0 ≤ fl64 x := by
  simp only [fl64]
  split_ifs with h0 h1 h2 h3
  · exact le_refl 0
  all_goals {
    push_neg at h0
    have hm0 : (0 : ℤ) ≤ ⌊x * pow2 (52 - floorLog2 x)⌋ :=
      Int.floor_nonneg.mpr (mul_nonneg h0.le (pow2_pos _).le)
    exact intq_mul_pow2_nonneg (by omega) _
  }

theorem fl64_le (x : ℚ) (hx : 0 < x) :
    fl64 x ≤ x + pow2 (floorLog2 x - 53) := by
  simp only [fl64]
  rw [if_neg (not_le.mpr hx)]
  have hP : (0 : ℚ) < pow2 (floorLog2 x - 52) := pow2_pos _
  have hkey : x * pow2 (52 - floorLog2 x) * pow2 (floorLog2 x - 52) = x := by
    rw [mul_assoc, ← pow2_add]
    have : (52 : ℤ) - floorLog2 x + (floorLog2 x - 52) = 0 := by ring
    rw [this]
    simp [pow2_eq_zpow]
  have hhalf : pow2 (floorLog2 x - 53) = 1 / 2 * pow2 (floorLog2 x - 52) := by
    have h1 : (floorLog2 x - 53 : ℤ) = -1 + (floorLog2 x - 52) := by ring
    rw [h1, pow2_add]
    simp only [pow2_eq_zpow]
    norm_num
  have hm0 : (⌊x * pow2 (52 - floorLog2 x)⌋ : ℚ) ≤ x * pow2 (52 - floorLog2 x) :=
    Int.floor_le _
  split_ifs with h1 h2 h3
  · -- round up, fraction above half
    have hb : (↑(⌊x * pow2 (52 - floorLog2 x)⌋ + 1) : ℚ)
        ≤ x * pow2 (52 - floorLog2 x) + 1 / 2 := by
      push_cast
      linarith
    calc (↑(⌊x * pow2 (52 - floorLog2 x)⌋ + 1) : ℚ) * pow2 (floorLog2 x - 52)
        ≤ (x * pow2 (52 - floorLog2 x) + 1 / 2) * pow2 (floorLog2 x - 52) :=
          mul_le_mul_of_nonneg_right hb hP.le
      _ = x + pow2 (floorLog2 x - 53) := by
          rw [add_mul, hkey, hhalf]
  · -- round down
    have hb : (↑⌊x * pow2 (52 - floorLog2 x)⌋ : ℚ)
        ≤ x * pow2 (52 - floorLog2 x) + 1 / 2 := by linarith
    calc (↑⌊x * pow2 (52 - floorLog2 x)⌋ : ℚ) * pow2 (floorLog2 x - 52)
        ≤ (x * pow2 (52 - floorLog2 x) + 1 / 2) * pow2 (floorLog2 x - 52) :=
          mul_le_mul_of_nonneg_right hb hP.le
      _ = x + pow2 (floorLog2 x - 53) := by
          rw [add_mul, hkey, hhalf]
  · -- tie, even mantissa stays
    have hb : (↑⌊x * pow2 (52 - floorLog2 x)⌋ : ℚ)
        ≤ x * pow2 (52 - floorLog2 x) + 1 / 2 := by linarith
    calc (↑⌊x * pow2 (52 - floorLog2 x)⌋ : ℚ) * pow2 (floorLog2 x - 52)
        ≤ (x * pow2 (52 - floorLog2 x) + 1 / 2) * pow2 (floorLog2 x - 52) :=
          mul_le_mul_of_nonneg_right hb hP.le
      _ = x + pow2 (floorLog2 x - 53) := by
          rw [add_mul, hkey, hhalf]
  · -- tie, odd mantissa rounds up: fraction is exactly one half
    have hfr : x * pow2 (52 - floorLog2 x) - (⌊x * pow2 (52 - floorLog2 x)⌋ : ℚ)
        = 1 / 2 := by linarith
    have hb : (↑(⌊x * pow2 (52 - floorLog2 x)⌋ + 1) : ℚ)
        ≤ x * pow2 (52 - floorLog2 x) + 1 / 2 := by
      push_cast
      linarith
    calc (↑(⌊x * pow2 (52 - floorLog2 x)⌋ + 1) : ℚ) * pow2 (floorLog2 x - 52)
        ≤ (x * pow2 (52 - floorLog2 x) + 1 / 2) * pow2 (floorLog2 x - 52) :=
          mul_le_mul_of_nonneg_right hb hP.le
      _ = x + pow2 (floorLog2 x - 53) := by
          rw [add_mul, hkey, hhalf]

/-! ## Timestamp Formatter

Model of `format_timestamp` (extract_subtitle_funasr.py, lines 303-309) and
of the identical `_format_srt_timestamp` (fetch_bilibili_subtitle.py, lines
366-372):

    hours = int(seconds // 3600)
    minutes = int((seconds % 3600) // 60)
    secs = int(seconds % 60)
    millis = int((seconds % 1) * 1000)
    return f"{hours:02d}:{minutes:02d}:{secs:02d},{millis:03d}"

Durations are binary64 floats; the model takes the exact rational value
of the input float.  Python float `%` (`fmod`) is exact on doubles, and
CPython's float `//` corrects its quotient to the exact floor, so the
hour, minute and second fields are exact rational arithmetic:
`q - m * floor(q / m)` and `floor(q / m)`.  The one rounded operation is
the multiply `(seconds % 1) * 1000`, modelled with `fl64`. -/

/-- Python float modulo for positive modulus, `q - m * floor(q / m)`. -/
def pymod (q m : ℚ) : ℚ := q - m * ⌊q / m⌋

/-- Hour field `int(seconds // 3600)`. -/
def fmtHours (q : ℚ) : ℕ := (⌊q / 3600⌋).toNat

/-- Minute field `int((seconds % 3600) // 60)`. -/
def fmtMinutes (q : ℚ) : ℕ := (⌊pymod q 3600 / 60⌋).toNat

/-- Second field `int(seconds % 60)`. -/
def fmtSecs (q : ℚ) : ℕ := (⌊pymod q 60⌋).toNat

/-- Millisecond field `int((seconds % 1) * 1000)`: the multiply by `1000`
is a binary64 operation, so the exact product is rounded with `fl64`
before `int` truncates it. -/
def fmtMillis (q : ℚ) : ℕ := (⌊fl64 (pymod q 1 * 1000)⌋).toNat

/-- Model of `format_timestamp` / `_format_srt_timestamp`: the SRT timestamp
string as a character list. -/
def format_timestamp (q : ℚ) : List Char :=
  padLeftZeros 2 (natChars (fmtHours q)) ++
    ':' :: padLeftZeros 2 (natChars (fmtMinutes q)) ++
    ':' :: padLeftZeros 2 (natChars (fmtSecs q)) ++
    ',' :: padLeftZeros 3 (natChars (fmtMillis q))

/-- String form of the formatted timestamp. -/
def formatTimestampS (q : ℚ) : String := String.mk (format_timestamp q)

/-- Parser for an SRT timestamp `H+:M+:S+,ms+` (any field width, all-digit
fields), recovering the total number of milliseconds. -/
def parseChunkNat (cs : List Char) : Option ℕ :=
  if cs ≠ [] ∧ cs.all isDigitChar = true then some (foldVal cs) else none

/-- SRT timestamp parser: splits on the two colons and the comma and
recombines the four fields into milliseconds. -/
def parse_srt_timestamp (cs : List Char) : Option ℕ :=
  match splitChar ':' cs with
  | [hc, mc, smsc] =>
    match splitChar ',' smsc with
    | [sc, msc] =>
      match parseChunkNat hc, parseChunkNat mc, parseChunkNat sc, parseChunkNat msc with
      | some h, some m, some s, some ms => some (3600000 * h + 60000 * m + 1000 * s + ms)
      | _, _, _, _ => none
    | _ => none
  | _ => none

/-- Shape of a two-digit-hour SRT timestamp `HH:MM:SS,mmm`. -/
def shapeSrt (cs : List Char) : Prop :=
  cs.length = 12 ∧ cs.getD 2 ' ' = ':' ∧ cs.getD 5 ' ' = ':' ∧ cs.getD 8 ' ' = ',' ∧
    ∀ i ∈ ([0, 1, 3, 4, 6, 7, 9, 10, 11] : List ℕ), isDigitChar (cs.getD i ' ') = true

instance (cs : List Char) : Decidable (shapeSrt cs) := by
  unfold shapeSrt
  infer_instance

theorem pymod_nonneg (q m : ℚ) (hm : 0 < m) : 0 ≤ pymod q m := by
  have h1 : (⌊q / m⌋ : ℚ) ≤ q / m := Int.floor_le _
  have h2 : m * (⌊q / m⌋ : ℚ) ≤ m * (q / m) := mul_le_mul_of_nonneg_left h1 hm.le
  have h3 : m * (q / m) = q := by field_simp
  simp only [pymod]
  linarith

theorem pymod_lt (q m : ℚ) (hm : 0 < m) : pymod q m < m := by
  have h1 : q / m < ⌊q / m⌋ + 1 := Int.lt_floor_add_one _
  have h2 : m * (q / m) < m * ((⌊q / m⌋ : ℚ) + 1) := by
    exact (mul_lt_mul_left hm).mpr h1
  have h3 : m * (q / m) = q := by field_simp
  simp only [pymod]
  nlinarith

/-- A non-negative binary64 value has fractional part at most
`1 - 2 ^ (-53)`: the largest double below an integer threshold is that
far from it. -/
theorem FloatVal_fract_le {q : ℚ} (hf : FloatVal q) :
    pymod q 1 ≤ 1 - pow2 (-53) := by
  obtain ⟨m, e, hm, rfl⟩ := hf
  have h53 : pow2 (-53) < 1 := by
    calc pow2 (-53) < pow2 0 := pow2_lt_pow2 (by norm_num)
      _ = 1 := pow2_zero
  rcases le_or_lt 0 e with he | he
  · -- integer double: zero fractional part
    have hint : (m : ℚ) * pow2 e = ((m * 2 ^ e.toNat : ℕ) : ℚ) := by
      rw [pow2_of_nonneg he]
      push_cast
      ring
    have hz : pymod ((m * 2 ^ e.toNat : ℕ) : ℚ) 1 = 0 := by
      rw [pymod, div_one]
      rw [show (((m * 2 ^ e.toNat : ℕ) : ℚ)) = ((((m * 2 ^ e.toNat : ℕ) : ℤ)) : ℚ) by push_cast; ring]
      rw [Int.floor_intCast]
      push_cast
      ring
    rw [hint, hz]
    linarith
  · -- fractional double `m / 2 ^ d`
    obtain ⟨d, rfl⟩ : ∃ d : ℕ, e = -(d : ℤ) := ⟨(-e).toNat, by omega⟩
    have hd1 : 1 ≤ d := by omega
    have hval : (m : ℚ) * pow2 (-(d : ℤ)) = ((m : ℤ) : ℚ) / ((2 ^ d : ℕ) : ℚ) := by
      rw [pow2_neg_nat]
      push_cast
      ring
    have hdpos : (0 : ℚ) < ((2 ^ d : ℕ) : ℚ) := by positivity
    have hfr : pymod (((m : ℤ) : ℚ) / ((2 ^ d : ℕ) : ℚ)) 1
        = ((m % 2 ^ d : ℕ) : ℚ) / ((2 ^ d : ℕ) : ℚ) := by
      rw [pymod, div_one, Rat.floor_intCast_div_natCast]
      have hid : ((2 ^ d * (m / 2 ^ d) + m % 2 ^ d : ℕ) : ℚ) = (m : ℚ) := by
        exact_mod_cast congrArg (fun k : ℕ => ((k : ℚ))) (Nat.div_add_mod m (2 ^ d))
      have hdd : ((((m : ℤ) / ((2 : ℤ) ^ d)) : ℤ) : ℚ) = ((m / 2 ^ d : ℕ) : ℚ) := by
        norm_cast
      push_cast at hid hdd ⊢
      rw [hdd]
      field_simp
      linarith
    rw [hval, hfr]
    rcases le_or_lt d 53 with hd53 | hd53
    · -- denominator at most 2^53: fraction at most 1 - 2^(-d) ≤ 1 - 2^(-53)
      have hr : m % 2 ^ d < 2 ^ d := Nat.mod_lt _ (Nat.pow_pos (by norm_num))
      have h1n : m % 2 ^ d + 1 ≤ 2 ^ d := hr
      have h1 : ((m % 2 ^ d : ℕ) : ℚ) + 1 ≤ ((2 ^ d : ℕ) : ℚ) := by exact_mod_cast h1n
      have hb1 : ((m % 2 ^ d : ℕ) : ℚ) / ((2 ^ d : ℕ) : ℚ) ≤ 1 - pow2 (-(d : ℤ)) := by
        rw [pow2_neg_nat, div_le_iff hdpos, sub_mul, one_mul,
          inv_mul_cancel₀ hdpos.ne']
        linarith
      have hb2 : pow2 (-53) ≤ pow2 (-(d : ℤ)) := pow2_le_pow2 (by omega)
      linarith
    · -- denominator at least 2^54: the whole value is below a half
      have hrm : m % 2 ^ d = m := Nat.mod_eq_of_lt (by
        calc m < 2 ^ 53 := hm
          _ < 2 ^ d := Nat.pow_lt_pow_right (by norm_num) (by omega))
      have hmlt : m < 2 ^ (d - 1) := by
        calc m < 2 ^ 53 := hm
          _ ≤ 2 ^ (d - 1) := Nat.pow_le_pow_right (by norm_num) (by omega)
      have hsplit : ((2 ^ d : ℕ) : ℚ) = 2 * ((2 ^ (d - 1) : ℕ) : ℚ) := by
        have hs : 2 ^ d = 2 * 2 ^ (d - 1) := by
          rw [← pow_succ']
          congr 1
          omega
        exact_mod_cast congrArg (fun k : ℕ => ((k : ℚ))) hs
      have hhalf : ((m % 2 ^ d : ℕ) : ℚ) / ((2 ^ d : ℕ) : ℚ) < 1 / 2 := by
        rw [hrm, div_lt_iff hdpos, hsplit]
        have hmq : (m : ℚ) < ((2 ^ (d - 1) : ℕ) : ℚ) := by exact_mod_cast hmlt
        linarith
      have h531 : pow2 (-53) ≤ 1 / 2 := by
        calc pow2 (-53) ≤ pow2 (-1) := pow2_le_pow2 (by norm_num)
          _ = 1 / 2 := by
            rw [pow2_eq_zpow]
            norm_num
      linarith

/-- The millisecond field of a binary64 input is below `1000`: the rounded
product `(q mod 1) * 1000` stays below `1000` because the fractional part
of a double is at most `1 - 2 ^ (-53)` and rounding adds at most
`2 ^ (floorLog2 - 53) ≤ 2 ^ (-44)`. -/
theorem fmtMillis_lt_1000 {q : ℚ} (hf : FloatVal q) : fmtMillis q < 1000 := by
  have hx0 : 0 ≤ pymod q 1 * 1000 :=
    mul_nonneg (pymod_nonneg q 1 (by norm_num)) (by norm_num)
  have hxu : pymod q 1 * 1000 ≤ 1000 - 1000 * pow2 (-53) := by
    have h := FloatVal_fract_le hf
    linarith
  have hp53 : (0 : ℚ) < pow2 (-53) := pow2_pos (-53)
  have hff : fl64 (pymod q 1 * 1000) < 1000 := by
    rcases eq_or_lt_of_le hx0 with hz | hpos
    · simp only [fl64]
      rw [if_pos (by linarith : pymod q 1 * 1000 ≤ 0)]
      norm_num
    · obtain ⟨hl, hu⟩ := floorLog2_spec _ hpos
      have he9 : floorLog2 (pymod q 1 * 1000) ≤ 9 := by
        by_contra hcon
        push_neg at hcon
        have h1024 : (1024 : ℚ) ≤ pymod q 1 * 1000 := by
          calc (1024 : ℚ) = pow2 10 := by
                rw [pow2_eq_zpow]
                norm_num
            _ ≤ pow2 (floorLog2 (pymod q 1 * 1000)) := pow2_le_pow2 (by omega)
            _ ≤ pymod q 1 * 1000 := hl
        nlinarith
      have hle := fl64_le _ hpos
      have hbound : pow2 (floorLog2 (pymod q 1 * 1000) - 53) ≤ pow2 (-44) :=
        pow2_le_pow2 (by omega)
      have h9 : pow2 9 = 512 := by
        rw [pow2_eq_zpow]
        norm_num
      have h512 : pow2 (-44) = 512 * pow2 (-53) := by
        rw [show ((-44 : ℤ)) = 9 + -53 by norm_num, pow2_add, h9]
      linarith
  have hfl : ⌊fl64 (pymod q 1 * 1000)⌋ < 1000 := by
    rw [Int.floor_lt]
    exact_mod_cast hff
  simp only [fmtMillis]
  omega

theorem foldVal_replicate_zero (k : ℕ) : foldVal (List.replicate k '0') = 0 := by
  induction k with
  | zero => simp [foldVal]
  | succ k ih =>
    simp only [List.replicate_succ, foldVal, List.foldl_cons]
    have : charVal '0' = 0 := by decide
    simpa [foldVal, this] using ih

theorem foldVal_padLeftZeros (w : ℕ) (cs : List Char) :
    foldVal (padLeftZeros w cs) = foldVal cs := by
  simp only [padLeftZeros, foldVal_append, foldVal_replicate_zero]
  simp

theorem padLeftZeros_all_digits {cs : List Char} (h : cs.all isDigitChar = true) (w : ℕ) :
    (padLeftZeros w cs).all isDigitChar = true := by
  simp only [padLeftZeros, List.all_append, h, Bool.and_eq_true]
  constructor
  · simp only [List.all_eq_true]
    intro c hc
    rw [List.eq_of_mem_replicate hc]
    decide
  · trivial

theorem padLeftZeros_ne_nil {cs : List Char} (h : cs ≠ []) (w : ℕ) :
    padLeftZeros w cs ≠ [] := by
  simp [padLeftZeros, h]

theorem not_mem_of_all_digits {cs : List Char} (h : cs.all isDigitChar = true)
    {c : Char} (hc : isDigitChar c = false) : c ∉ cs := by
  intro hmem
  rw [List.all_eq_true] at h
  have := h c hmem
  rw [hc] at this
  exact Bool.noConfusion this

/-- Digit chunk of a padded decimal rendering parses back to the value. -/
theorem parseChunkNat_pad (n w : ℕ) : parseChunkNat (padLeftZeros w (natChars n)) = some n := by
  obtain ⟨hv, hd, hne⟩ := natChars_spec n
  rw [parseChunkNat, if_pos ⟨padLeftZeros_ne_nil hne w, padLeftZeros_all_digits hd w⟩,
    foldVal_padLeftZeros, hv]

theorem floor_pymod3600_div60 (q : ℚ) :
    ⌊pymod q 3600 / 60⌋ = ⌊q / 60⌋ - 60 * ⌊q / 3600⌋ := by
  have h : pymod q 3600 / 60 = q / 60 - ((60 * ⌊q / 3600⌋ : ℤ) : ℚ) := by
    simp only [pymod]
    push_cast
    ring
  rw [h, Int.floor_sub_int]

theorem floor_pymod60 (q : ℚ) : ⌊pymod q 60⌋ = ⌊q⌋ - 60 * ⌊q / 60⌋ := by
  have h : pymod q 60 = q - ((60 * ⌊q / 60⌋ : ℤ) : ℚ) := by
    simp only [pymod]
    push_cast
    ring
  rw [h, Int.floor_sub_int]

theorem floor_pymod1_mul1000 (q : ℚ) : ⌊pymod q 1 * 1000⌋ = ⌊q * 1000⌋ - 1000 * ⌊q⌋ := by
  have h : pymod q 1 * 1000 = q * 1000 - ((1000 * ⌊q⌋ : ℤ) : ℚ) := by
    simp only [pymod, div_one]
    push_cast
    ring
  rw [h, Int.floor_sub_int]

/-- Round-trip: parsing the formatted timestamp of a non-negative duration
recovers `1000 * ⌊q⌋` plus the (rounded, then truncated) millisecond
field — the hour, minute and second fields always recombine exactly. -/
theorem format_timestamp_roundtrip (q : ℚ) (hq : 0 ≤ q) :
    parse_srt_timestamp (format_timestamp q)
      = some (1000 * (⌊q⌋).toNat + fmtMillis q) := by
  obtain ⟨-, hd1, hne1⟩ := natChars_spec (fmtHours q)
  obtain ⟨-, hd2, hne2⟩ := natChars_spec (fmtMinutes q)
  obtain ⟨-, hd3, hne3⟩ := natChars_spec (fmtSecs q)
  obtain ⟨-, hd4, hne4⟩ := natChars_spec (fmtMillis q)
  have hp1 := padLeftZeros_all_digits hd1 2
  have hp2 := padLeftZeros_all_digits hd2 2
  have hp3 := padLeftZeros_all_digits hd3 2
  have hp4 := padLeftZeros_all_digits hd4 3
  have hc1 : ':' ∉ padLeftZeros 2 (natChars (fmtHours q)) :=
    not_mem_of_all_digits hp1 (by decide)
  have hc2 : ':' ∉ padLeftZeros 2 (natChars (fmtMinutes q)) :=
    not_mem_of_all_digits hp2 (by decide)
  have hc3 : ':' ∉ padLeftZeros 2 (natChars (fmtSecs q)) :=
    not_mem_of_all_digits hp3 (by decide)
  have hc4 : ':' ∉ padLeftZeros 3 (natChars (fmtMillis q)) :=
    not_mem_of_all_digits hp4 (by decide)
  have hm3 : ',' ∉ padLeftZeros 2 (natChars (fmtSecs q)) :=
    not_mem_of_all_digits hp3 (by decide)
  have hm4 : ',' ∉ padLeftZeros 3 (natChars (fmtMillis q)) :=
    not_mem_of_all_digits hp4 (by decide)
  have hsplit1 : splitChar ':' (format_timestamp q) =
      [padLeftZeros 2 (natChars (fmtHours q)), padLeftZeros 2 (natChars (fmtMinutes q)),
        padLeftZeros 2 (natChars (fmtSecs q)) ++ ',' :: padLeftZeros 3 (natChars (fmtMillis q))] := by
    rw [format_timestamp]
    simp only [List.append_assoc, List.cons_append]
    rw [splitChar_append _ hc1, splitChar_append _ hc2,
      splitChar_of_not_mem (by simp [List.mem_append, List.mem_cons, hc3, hc4])]
  have hsplit2 : splitChar ','
      (padLeftZeros 2 (natChars (fmtSecs q)) ++ ',' :: padLeftZeros 3 (natChars (fmtMillis q))) =
      [padLeftZeros 2 (natChars (fmtSecs q)), padLeftZeros 3 (natChars (fmtMillis q))] := by
    rw [splitChar_append _ hm3, splitChar_of_not_mem hm4]
  rw [parse_srt_timestamp, hsplit1]
  simp only [hsplit2, parseChunkNat_pad]
  have h0 : (0 : ℚ) ≤ q / 3600 := by positivity
  have hH : (fmtHours q : ℤ) = ⌊q / 3600⌋ :=
    Int.toNat_of_nonneg (Int.floor_nonneg.mpr h0)
  have hM : (fmtMinutes q : ℤ) = ⌊pymod q 3600 / 60⌋ := by
    refine Int.toNat_of_nonneg (Int.floor_nonneg.mpr ?_)
    have := pymod_nonneg q 3600 (by norm_num)
    positivity
  have hS : (fmtSecs q : ℤ) = ⌊pymod q 60⌋ :=
    Int.toNat_of_nonneg (Int.floor_nonneg.mpr (pymod_nonneg q 60 (by norm_num)))
  have htq : ((⌊q⌋).toNat : ℤ) = ⌊q⌋ := Int.toNat_of_nonneg (Int.floor_nonneg.mpr hq)
  have key : ((3600000 * fmtHours q + 60000 * fmtMinutes q + 1000 * fmtSecs q : ℕ) : ℤ)
      = 1000 * ⌊q⌋ := by
    push_cast
    rw [hH, hM, hS, floor_pymod3600_div60, floor_pymod60]
    ring
  have hfin : 3600000 * fmtHours q + 60000 * fmtMinutes q + 1000 * fmtSecs q + fmtMillis q
      = 1000 * (⌊q⌋).toNat + fmtMillis q := by omega
  rw [hfin]

/-- When the binary64 product `(q mod 1) * 1000` happens to be exact, the
round-trip recovers `⌊1000 * q⌋` milliseconds. -/
theorem format_timestamp_roundtrip_exact (q : ℚ) (hq : 0 ≤ q)
    (hex : fl64 (pymod q 1 * 1000) = pymod q 1 * 1000) :
    parse_srt_timestamp (format_timestamp q) = some ((⌊q * 1000⌋).toNat) := by
  rw [format_timestamp_roundtrip q hq]
  have h0 : 0 ≤ pymod q 1 * 1000 :=
    mul_nonneg (pymod_nonneg q 1 (by norm_num)) (by norm_num)
  have hmm : (fmtMillis q : ℤ) = ⌊q * 1000⌋ - 1000 * ⌊q⌋ := by
    rw [fmtMillis, hex, Int.toNat_of_nonneg (Int.floor_nonneg.mpr h0)]
    exact floor_pymod1_mul1000 q
  have htq : 0 ≤ ⌊q⌋ := Int.floor_nonneg.mpr hq
  refine congrArg some ?_
  omega

theorem natCharsFuel_length {f n k : ℕ} (h : n < 10 ^ f) (hf : 0 < f)
    (hk : n < 10 ^ k) (hk1 : 0 < k) : (natCharsFuel f n).length ≤ k := by
  induction f generalizing n k with
  | zero => omega
  | succ f ih =>
    by_cases h10 : n < 10
    · simp only [natCharsFuel, if_pos h10, List.length_cons, List.length_nil]
      omega
    · have hf0 : 0 < f := by
        rcases Nat.eq_zero_or_pos f with hz | hp
        · exfalso; subst hz; simp at h; omega
        · exact hp
      have hk2 : 2 ≤ k := by
        by_contra hcon
        have : k = 1 := by omega
        subst this
        simp at hk
        omega
      have hdivf : n / 10 < 10 ^ f := by
        rw [Nat.div_lt_iff_lt_mul (by norm_num)]
        calc n < 10 ^ (f + 1) := h
        _ = 10 ^ f * 10 := by rw [pow_succ]
      have hdivk : n / 10 < 10 ^ (k - 1) := by
        rw [Nat.div_lt_iff_lt_mul (by norm_num)]
        calc n < 10 ^ k := hk
        _ = 10 ^ (k - 1) * 10 := by
          rw [← pow_succ]
          congr 1
          omega
      have := ih hdivf hf0 hdivk (by omega)
      simp only [natCharsFuel, if_neg h10, List.length_append, List.length_cons,
        List.length_nil]
      omega

theorem natChars_length_le {n k : ℕ} (hk : n < 10 ^ k) (hk1 : 0 < k) :
    (natChars n).length ≤ k := by
  have h1 : n < 10 ^ n := Nat.lt_pow_self (by norm_num) n
  have h : n < 10 ^ (n + 1) :=
    lt_of_lt_of_le h1 (Nat.pow_le_pow_right (by norm_num) (Nat.le_succ n))
  exact natCharsFuel_length h (Nat.succ_pos n) hk hk1

theorem padLeftZeros_length {w : ℕ} {cs : List Char} (h : cs.length ≤ w) :
    (padLeftZeros w cs).length = w := by
  simp [padLeftZeros]
  omega

set_option maxHeartbeats 1000000 in
/-- Below 100 hours, for a binary64-representable input, every field is
two digits (three for milliseconds), so the formatted string has the
exact `HH:MM:SS,mmm` shape.  The representability hypothesis matters: the
rounded millisecond product of a non-double rational could reach 1000. -/
theorem format_timestamp_shape (q : ℚ) (hq : 0 ≤ q) (hlt : q < 360000)
    (hf : FloatVal q) : shapeSrt (format_timestamp q) := by
  have hH : fmtHours q < 100 := by
    have hfl : ⌊q / 3600⌋ < 100 := by
      rw [Int.floor_lt]
      rw [div_lt_iff (by norm_num)]
      push_cast
      linarith
    simp only [fmtHours]
    omega
  have hM : fmtMinutes q < 100 := by
    have h1 : pymod q 3600 < 3600 := pymod_lt q 3600 (by norm_num)
    have hfl : ⌊pymod q 3600 / 60⌋ < 100 := by
      rw [Int.floor_lt]
      rw [div_lt_iff (by norm_num)]
      push_cast
      linarith
    simp only [fmtMinutes]
    omega
  have hS : fmtSecs q < 100 := by
    have h1 : pymod q 60 < 60 := pymod_lt q 60 (by norm_num)
    have hfl : ⌊pymod q 60⌋ < 100 := by
      rw [Int.floor_lt]
      push_cast
      linarith
    simp only [fmtSecs]
    omega
  have hMS : fmtMillis q < 1000 := fmtMillis_lt_1000 hf
  obtain ⟨-, hd1, -⟩ := natChars_spec (fmtHours q)
  obtain ⟨-, hd2, -⟩ := natChars_spec (fmtMinutes q)
  obtain ⟨-, hd3, -⟩ := natChars_spec (fmtSecs q)
  obtain ⟨-, hd4, -⟩ := natChars_spec (fmtMillis q)
  have hl1 : (padLeftZeros 2 (natChars (fmtHours q))).length = 2 :=
    padLeftZeros_length (natChars_length_le (by simpa using hH) (by norm_num))
  have hl2 : (padLeftZeros 2 (natChars (fmtMinutes q))).length = 2 :=
    padLeftZeros_length (natChars_length_le (by simpa using hM) (by norm_num))
  have hl3 : (padLeftZeros 2 (natChars (fmtSecs q))).length = 2 :=
    padLeftZeros_length (natChars_length_le (by simpa using hS) (by norm_num))
  have hl4 : (padLeftZeros 3 (natChars (fmtMillis q))).length = 3 :=
    padLeftZeros_length (natChars_length_le (by simpa using hMS) (by norm_num))
  have hp1 := padLeftZeros_all_digits hd1 2
  have hp2 := padLeftZeros_all_digits hd2 2
  have hp3 := padLeftZeros_all_digits hd3 2
  have hp4 := padLeftZeros_all_digits hd4 3
  obtain ⟨a, b, he1⟩ := List.length_eq_two.mp hl1
  obtain ⟨c, d, he2⟩ := List.length_eq_two.mp hl2
  obtain ⟨e, f, he3⟩ := List.length_eq_two.mp hl3
  obtain ⟨g, h, i, he4⟩ := List.length_eq_three.mp hl4
  rw [he1] at hp1
  rw [he2] at hp2
  rw [he3] at hp3
  rw [he4] at hp4
  simp only [List.all_cons, List.all_nil, Bool.and_eq_true, Bool.and_true] at hp1 hp2 hp3 hp4
  rw [shapeSrt, format_timestamp, he1, he2, he3, he4]
  refine ⟨by simp, by simp [List.getD], by simp [List.getD], by simp [List.getD], ?_⟩
  intro j hj
  fin_cases hj <;> simp [List.getD] <;> tauto

/-! ## IEEE binary64 model

The index mapping in `_split_text_by_punctuation` (line 333) is
`min(int(char_idx / text_len * ts_len), ts_len - 1)`, computed in Python
floats.  For the positive, normal-range magnitudes that occur there
(integers below 2^53 and their quotients), CPython performs two correctly
rounded binary64 operations: the true division `char_idx / text_len` and
the multiplication by `ts_len`.  The model below reproduces
round-to-nearest-even at 53 significant bits exactly, representing a
non-negative float as a dyadic pair `(mant, sh)` with value
`mant * 2 ^ sh`, in plain natural/integer arithmetic. -/

/-- Test `2 ^ x ≤ a / b` for an integer exponent `x`, by cross
multiplication (one of the two powers is always `2 ^ 0`). -/
def gePow2 (a b : ℕ) (x : ℤ) : Bool :=
  decide (b * 2 ^ x.toNat ≤ a * 2 ^ (-x).toNat)

/-- Round the integer `p` to a multiple of `2 ^ sh`, ties to even, and
return the multiplier. -/
def roundMantissa (p sh : ℕ) : ℕ :=
  let d := 2 ^ sh
  let m0 := p / d
  let r := p % d
  if d < 2 * r then m0 + 1
  else if 2 * r < d then m0
  else if m0 % 2 = 0 then m0 else m0 + 1

/-- CPython `a / b` on ints: the correctly rounded binary64 quotient, as a
dyadic pair.  The binade exponent `e` with `2 ^ e ≤ a / b < 2 ^ (e + 1)` is
guessed from digit counts and corrected by comparison; the quotient is then
scaled to `[2 ^ 52, 2 ^ 53)` and rounded half-to-even. -/
def pyDivD (a b : ℕ) : ℕ × ℤ :=
  if a = 0 ∨ b = 0 then (0, 0)
  else
    let e0 : ℤ := (natLog2 a : ℤ) - (natLog2 b : ℤ)
    let e : ℤ := if gePow2 a b (e0 + 1) then e0 + 1 else if gePow2 a b e0 then e0 else e0 - 1
    let n1 := a * 2 ^ (52 - e).toNat
    let d1 := b * 2 ^ (e - 52).toNat
    let m0 := n1 / d1
    let r := n1 % d1
    let m1 :=
      if d1 < 2 * r then m0 + 1
      else if 2 * r < d1 then m0
      else if m0 % 2 = 0 then m0 else m0 + 1
    (m1, e - 52)

/-- CPython `x * n` for a non-negative float `x` and an int `n` below 2^53:
the int converts exactly, the exact product is rounded once to 53
significant bits. -/
def pyMulD (x : ℕ × ℤ) (n : ℕ) : ℕ × ℤ :=
  let p := x.1 * n
  if p = 0 then (0, 0)
  else
    let t := natLog2 p
    if t ≤ 52 then (p, x.2)
    else (roundMantissa p (t - 52), x.2 + (t - 52))

/-- Python `int()` on a non-negative float: the value of the dyadic pair,
truncated. -/
def dyadicFloor (x : ℕ × ℤ) : ℕ :=
  if 0 ≤ x.2 then x.1 * 2 ^ x.2.toNat else x.1 / 2 ^ (-x.2).toNat

/-! ## Sentence splitter

Model of `_split_text_by_punctuation` (extract_subtitle_funasr.py, lines
312-357).  Texts are lists of characters (Python `len`/indexing count code
points), timestamps are `[start_ms, end_ms]` integer pairs. -/

/-- Sentence-ending punctuation set (line 319). -/
def sentence_endings : List Char := ['。', '！', '？', '!', '?', '；', ';', '…']

/-- Comma-class punctuation set (line 321). -/
def clause_breaks : List Char := ['，', ',', '、']

/-- Timestamp-array index for a character offset, as the source computes it:
`min(int(char_idx / text_len * ts_len), ts_len - 1) if ts_len > 0 else 0`,
with the float expression evaluated in binary64. -/
def tsIdxF (textLen tsLen i : ℕ) : ℕ :=
  if 0 < tsLen then min (dyadicFloor (pyMulD (pyDivD i textLen) tsLen)) (tsLen - 1) else 0

/-- Timestamp-array index as the spec states it: exact
`floor(char_offset / text_length * timestamp_count)`, clamped. -/
def tsIdxExact (textLen tsLen i : ℕ) : ℕ :=
  if 0 < tsLen then min (i * tsLen / textLen) (tsLen - 1) else 0

/-- Break decision at one character: sentence-ending punctuation, or
comma-class punctuation with an accumulated run longer than 25, or the last
character of the text (lines 335-339). -/
def brkB (textLen : ℕ) (c : Char) (runLen i : ℕ) : Bool :=
  sentence_endings.contains c ||
    (clause_breaks.contains c && decide (25 < runLen)) || decide (i = textLen - 1)

/-- Emitted sentence span: stripped text with start/end milliseconds. -/
structure SentSpan where
  text : List Char
  start_ms : ℤ
  end_ms : ℤ
deriving DecidableEq, Repr

/-- Loop of `_split_text_by_punctuation`: walks the remaining characters
carrying the current run, its starting offset and the running offset. -/
def splitGo (textLen tsLen : ℕ) (ts : List (ℤ × ℤ)) :
    List Char → ℕ → List Char → ℕ → List SentSpan
  | [], _, _, _ => []
  | c :: rest, i, cur, startIdx =>
    let cur2 := cur ++ [c]
    if brkB textLen c cur2.length i then
      let sentText := pystrip cur2
      let tail := splitGo textLen tsLen ts rest (i + 1) [] (i + 1)
      if sentText = [] then tail
      else
        { text := sentText,
          start_ms := if 0 < tsLen then (ts.getD (tsIdxF textLen tsLen startIdx) (0, 0)).1 else 0,
          end_ms := if 0 < tsLen then (ts.getD (tsIdxF textLen tsLen i) (0, 0)).2 else 0 } :: tail
    else splitGo textLen tsLen ts rest (i + 1) cur2 startIdx

/-- Model of `_split_text_by_punctuation`. -/
def _split_text_by_punctuation (text : List Char) (ts : List (ℤ × ℤ)) : List SentSpan :=
  splitGo text.length ts.length ts text 0 [] 0

/-! ### Specification-side chunking

Second definition for the refinement claims, following the spec's words:
the text is cut into chunks at exactly the break characters; each chunk
carries its first and last character offsets. -/

/-- Chunking loop: same walk as `splitGo` but recording offset ranges and
raw chunk text instead of building spans. -/
def chunksGo (textLen : ℕ) : List Char → ℕ → List Char → ℕ → List (ℕ × ℕ × List Char)
  | [], _, _, _ => []
  | c :: rest, i, cur, startIdx =>
    let cur2 := cur ++ [c]
    if brkB textLen c cur2.length i then
      (startIdx, i, cur2) :: chunksGo textLen rest (i + 1) [] (i + 1)
    else chunksGo textLen rest (i + 1) cur2 startIdx

/-- Chunks of a text under the spec's break rules. -/
def specChunks (text : List Char) : List (ℕ × ℕ × List Char) :=
  chunksGo text.length text 0 [] 0

/-- Span the splitter emits for one chunk: strip the chunk text, drop it if
the strip is empty, else map the chunk's first/last offsets through the
index mapping and read the start of the first and the end of the last
mapped timestamp. -/
def chunkToSpan (textLen tsLen : ℕ) (ts : List (ℤ × ℤ)) (ch : ℕ × ℕ × List Char) :
    Option SentSpan :=
  let st := pystrip ch.2.2
  if st = [] then none
  else
    some { text := st,
           start_ms := if 0 < tsLen then (ts.getD (tsIdxF textLen tsLen ch.1) (0, 0)).1 else 0,
           end_ms := if 0 < tsLen then (ts.getD (tsIdxF textLen tsLen ch.2.1) (0, 0)).2 else 0 }

/-- The splitter loop is the chunking loop followed by per-chunk span
construction. -/
theorem splitGo_eq_chunksGo (textLen tsLen : ℕ) (ts : List (ℤ × ℤ)) :
    ∀ (rest : List Char) (i : ℕ) (cur : List Char) (s : ℕ),
      splitGo textLen tsLen ts rest i cur s =
        (chunksGo textLen rest i cur s).filterMap (chunkToSpan textLen tsLen ts) := by
  intro rest
  induction rest with
  | nil => intro i cur s; simp [splitGo, chunksGo]
  | cons c rest ih =>
    intro i cur s
    simp only [splitGo, chunksGo]
    by_cases hbrk : brkB textLen c (cur ++ [c]).length i = true
    · simp only [hbrk, if_true, List.filterMap_cons]
      by_cases hst : pystrip (cur ++ [c]) = []
      · simp [chunkToSpan, hst, ih]
      · simp [chunkToSpan, hst, ih]
    · simp only [Bool.not_eq_true] at hbrk
      simp only [List.length_append, List.length_cons, List.length_nil, Nat.zero_add] at hbrk
      simp [hbrk, ih]

/-- The splitter equals spec-side chunking followed by span construction. -/
theorem split_eq_specChunks (text : List Char) (ts : List (ℤ × ℤ)) :
    _split_text_by_punctuation text ts =
      (specChunks text).filterMap (chunkToSpan text.length ts.length ts) :=
  splitGo_eq_chunksGo text.length ts.length ts text 0 [] 0

theorem getD_take_of_lt (l : List Char) {n j : ℕ} (h : j < n) (d : Char) :
    (l.take n).getD j d = l.getD j d := by
  by_cases hl : j < l.length
  · have h1 : j < (l.take n).length := by
      simp only [List.length_take]
      omega
    rw [List.getD_eq_getElem _ _ h1, List.getD_eq_getElem _ _ hl]
    simp [List.getElem_take]
  · rw [List.getD_eq_default _ _ (by simp only [List.length_take]; omega),
      List.getD_eq_default _ _ (by omega)]

/-- Structural properties of one chunk: nonempty, correct offset span, it
ends strictly inside the text, its last character satisfies the break
condition, and no character before the last (beyond the carried-in open run
of length `pre`) satisfies it. -/
def goodChunk (textLen pre : ℕ) (ch : ℕ × ℕ × List Char) : Prop :=
  ch.2.2 ≠ [] ∧
    ch.2.1 + 1 = ch.1 + ch.2.2.length ∧
    ch.2.1 < textLen ∧
    brkB textLen (ch.2.2.getD (ch.2.2.length - 1) ' ') ch.2.2.length ch.2.1 = true ∧
    ∀ j, pre ≤ j → j + 1 < ch.2.2.length →
      brkB textLen (ch.2.2.getD j ' ') (j + 1) (ch.1 + j) = false

theorem chunksGo_good (textLen : ℕ) :
    ∀ (rest : List Char) (i : ℕ) (cur : List Char) (s : ℕ),
      i + rest.length = textLen → i = s + cur.length →
      ∀ ch ∈ chunksGo textLen rest i cur s,
        (ch.1 = s ∧ ch.2.2.take cur.length = cur ∧ goodChunk textLen cur.length ch) ∨
          goodChunk textLen 0 ch := by
  intro rest
  induction rest with
  | nil =>
    intro i cur s h1 h2 ch hch
    simp [chunksGo] at hch
  | cons c rest ih =>
    intro i cur s h1 h2 ch hch
    simp only [chunksGo] at hch
    by_cases hbrk : brkB textLen c (cur ++ [c]).length i = true
    · rw [if_pos hbrk] at hch
      rcases List.mem_cons.mp hch with hhead | htail
      · subst hhead
        left
        refine ⟨rfl, by simpa using List.take_left cur [c], ?_, ?_, ?_, ?_, ?_⟩
        · simp
        · simp only [List.length_append, List.length_cons, List.length_nil]
          simp only [List.length_cons, List.length_nil] at h1
          omega
        · show i < textLen
          simp only [List.length_cons] at h1
          omega
        · have hget : (cur ++ [c]).getD ((cur ++ [c]).length - 1) ' ' = c := by
            have : (cur ++ [c]).length - 1 = cur.length := by simp
            rw [this, List.getD_append_right _ _ _ _ (le_refl _)]
            simp
          rw [hget]
          exact hbrk
        · intro j hj hjlen
          simp only [List.length_append, List.length_cons, List.length_nil] at hjlen
          omega
      · have hinv1 : i + 1 + rest.length = textLen := by
          simp only [List.length_cons] at h1
          omega
        rcases ih (i + 1) [] (i + 1) hinv1 (by simp) ch htail with ⟨-, -, hg⟩ | hg
        · exact Or.inr (by simpa using hg)
        · exact Or.inr hg
    · rw [if_neg hbrk] at hch
      have hinv1 : i + 1 + rest.length = textLen := by
        simp only [List.length_cons] at h1
        omega
      have hinv2 : i + 1 = s + (cur ++ [c]).length := by
        simp only [List.length_append, List.length_cons, List.length_nil]
        omega
      rcases ih (i + 1) (cur ++ [c]) s hinv1 hinv2 ch hch with ⟨hs, htake, hg⟩ | hg
      · left
        have hlen : (cur ++ [c]).length = cur.length + 1 := by simp
        rw [hlen] at htake hg
        have htake2 : ch.2.2.take cur.length = cur := by
          have hmin : ch.2.2.take cur.length = (ch.2.2.take (cur.length + 1)).take cur.length := by
            rw [List.take_take]
            congr 1
            omega
          rw [hmin, htake]
          simpa using List.take_left cur [c]
        refine ⟨hs, htake2, hg.1, hg.2.1, hg.2.2.1, hg.2.2.2.1, ?_⟩
        intro j hj hjlen
        by_cases hjc : cur.length + 1 ≤ j
        · exact hg.2.2.2.2 j hjc hjlen
        · have hje : j = cur.length := by omega
          subst hje
          have hget : ch.2.2.getD cur.length ' ' = c := by
            have h4 : ch.2.2.getD cur.length ' '
                = (ch.2.2.take (cur.length + 1)).getD cur.length ' ' :=
              (getD_take_of_lt _ (by omega) _).symm
            rw [h4, htake, List.getD_append_right _ _ _ _ (le_refl _)]
            simp
          rw [hget, hs]
          have hpos : s + cur.length = i := h2.symm
          rw [hpos]
          have hlen2 : cur.length + 1 = (cur ++ [c]).length := by simp
          rw [hlen2]
          exact Bool.not_eq_true _ ▸ (by simpa using hbrk)
      · exact Or.inr hg

theorem chunksGo_join (textLen : ℕ) :
    ∀ (rest : List Char) (i : ℕ) (cur : List Char) (s : ℕ),
      i + rest.length = textLen → rest ≠ [] →
      ((chunksGo textLen rest i cur s).map (fun ch => ch.2.2)).flatten = cur ++ rest := by
  intro rest
  induction rest with
  | nil => intro i cur s h1 h2; exact absurd rfl h2
  | cons c rest ih =>
    intro i cur s h1 h2
    simp only [chunksGo]
    rcases eq_or_ne rest [] with hr | hr
    · subst hr
      have hi : i = textLen - 1 := by
        simp only [List.length_cons, List.length_nil] at h1
        omega
      have hbrk : brkB textLen c (cur ++ [c]).length i = true := by
        simp [brkB, hi]
      rw [if_pos hbrk]
      simp [chunksGo]
    · by_cases hbrk : brkB textLen c (cur ++ [c]).length i = true
      · rw [if_pos hbrk]
        simp only [List.map_cons, List.flatten_cons]
        rw [ih (i + 1) [] (i + 1) (by simp only [List.length_cons] at h1 ⊢; omega) hr]
        simp
      · rw [if_neg hbrk]
        rw [ih (i + 1) (cur ++ [c]) s (by simp only [List.length_cons] at h1 ⊢; omega) hr]
        simp

/-! ## Platform subtitle conversion

Model of the SRT-writing step of `fetch_subtitle` (fetch_bilibili_subtitle.py,
lines 339-348):

    for i, item in enumerate(body, 1):
        start = item.get("from", 0)
        end = item.get("to", 0)
        content = item.get("content", "").strip()
        if content:
            f.write(f"{i}\\n{start_ts} --> {end_ts}\\n{content}\\n\\n")

Note that `i` advances over every source item, also over the ones dropped
for empty text. -/

/-- One item of the downloaded caption payload (`from`/`to` in seconds). -/
structure BiliItem where
  fromS : ℚ
  toS : ℚ
  content : String
deriving DecidableEq

/-- One SRT block as written by the platform tier. -/
structure SrtEntry where
  index : ℕ
  startSec : ℚ
  endSec : ℚ
  text : String
deriving DecidableEq

/-- Write loop of `fetch_subtitle`, carrying the 1-based `enumerate`
counter. -/
def fetchWriteGo : ℕ → List BiliItem → List SrtEntry
  | _, [] => []
  | i, it :: rest =>
    (if pystripS it.content ≠ "" then
      [{ index := i, startSec := it.fromS, endSec := it.toS, text := pystripS it.content }]
    else []) ++ fetchWriteGo (i + 1) rest

/-- Entries written by `fetch_subtitle` for a caption payload. -/
def fetch_subtitle_entries (body : List BiliItem) : List SrtEntry :=
  fetchWriteGo 1 body

/-- The write loop keeps exactly the non-empty-content items, stamped with
their 1-based source positions. -/
theorem fetchWriteGo_eq_enum (body : List BiliItem) :
    ∀ i, fetchWriteGo i body = (body.enumFrom i).filterMap
      (fun p => if pystripS p.2.content ≠ "" then
        some { index := p.1, startSec := p.2.fromS, endSec := p.2.toS,
               text := pystripS p.2.content }
      else none) := by
  induction body with
  | nil => intro i; simp [fetchWriteGo]
  | cons it rest ih =>
    intro i
    simp only [fetchWriteGo, List.enumFrom, List.filterMap_cons, ih (i + 1)]
    by_cases h : pystripS it.content ≠ "" <;> simp [h]

theorem fetchWriteGo_index_lt (body : List BiliItem) :
    ∀ i, ∀ e ∈ fetchWriteGo i body, i ≤ e.index := by
  induction body with
  | nil => intro i e he; simp [fetchWriteGo] at he
  | cons it rest ih =>
    intro i e he
    simp only [fetchWriteGo, List.mem_append] at he
    rcases he with he | he
    · split at he <;> simp_all
    · have := ih (i + 1) e he
      omega

/-- Indices in the written entries are strictly increasing (in source
order). -/
theorem fetchWriteGo_chain (body : List BiliItem) :
    ∀ i, List.Chain' (fun a b => a.index < b.index) (fetchWriteGo i body) := by
  induction body with
  | nil => intro i; simp [fetchWriteGo]
  | cons it rest ih =>
    intro i
    simp only [fetchWriteGo]
    by_cases h : pystripS it.content ≠ ""
    · rw [if_pos h, List.singleton_append]
      rcases hrest : fetchWriteGo (i + 1) rest with - | ⟨e, tail⟩
      · simp
      · have h1 : i + 1 ≤ e.index := fetchWriteGo_index_lt rest (i + 1) e (by rw [hrest]; simp)
        have h2 := ih (i + 1)
        rw [hrest] at h2
        exact List.Chain'.cons (show i < e.index by omega) h2
    · rw [if_neg h, List.nil_append]
      exact ih (i + 1)

/-- Start seconds of the written entries are the kept items' start values in
source order. -/
theorem fetch_entries_starts (body : List BiliItem) :
    (fetch_subtitle_entries body).map SrtEntry.startSec =
      ((body.filter (fun it => pystripS it.content ≠ "")).map BiliItem.fromS) := by
  rw [fetch_subtitle_entries]
  generalize 1 = i
  induction body generalizing i with
  | nil => simp [fetchWriteGo]
  | cons it rest ih =>
    simp only [fetchWriteGo, List.filter_cons]
    by_cases h : pystripS it.content ≠ "" <;> simp [h, ih]

/-! ## FunASR segment processing

Model of the SRT-generation loop of `extract_with_funasr`
(extract_subtitle_funasr.py, lines 399-434).  Each model segment carries a
raw text, an optional token-timestamp array and an optional list of
sentence-level spans; the loop dispatches on the first applicable of:
sentence spans (plan A), token timestamps (plan B), plain text (plan C),
and increments one running 1-based counter across all written blocks. -/

/-- One item of `sentence_info` (`start`/`end` in milliseconds). -/
structure FunSent where
  text : String
  start : ℤ
  stop : ℤ
deriving DecidableEq

/-- One element of the model output list. -/
structure FunSeg where
  text : String
  timestamp : List (ℤ × ℤ)
  sentence_info : List FunSent
deriving DecidableEq

/-- One SRT block written by `extract_with_funasr`. -/
structure FunBlock where
  index : ℕ
  startStr : String
  endStr : String
  text : String
deriving DecidableEq

/-- Plan A: one block per sentence-info span with non-empty stripped text
(lines 406-414). -/
def planABlocks : ℕ → List FunSent → List FunBlock × ℕ
  | c, [] => ([], c)
  | c, sent :: rest =>
    if pystripS sent.text ≠ "" then
      let r := planABlocks (c + 1) rest
      ({ index := c + 1, startStr := formatTimestampS ((sent.start : ℚ) / 1000),
         endStr := formatTimestampS ((sent.stop : ℚ) / 1000),
         text := pystripS sent.text } :: r.1, r.2)
    else planABlocks c rest

/-- Plan B: one block per span produced by the punctuation splitter
(lines 416-423). -/
def planBBlocks : ℕ → List SentSpan → List FunBlock × ℕ
  | c, [] => ([], c)
  | c, sp :: rest =>
    let r := planBBlocks (c + 1) rest
    ({ index := c + 1, startStr := formatTimestampS ((sp.start_ms : ℚ) / 1000),
       endStr := formatTimestampS ((sp.end_ms : ℚ) / 1000),
       text := String.mk sp.text } :: r.1, r.2)

/-- Blocks contributed by one segment, with the counter threaded through:
sentence spans first, else token timestamps with non-empty text, else bare
text as a single zero-time block, else nothing (lines 401-428). -/
def segBlocks (c : ℕ) (seg : FunSeg) : List FunBlock × ℕ :=
  if seg.sentence_info ≠ [] then planABlocks c seg.sentence_info
  else if seg.timestamp ≠ [] ∧ pystripS seg.text ≠ "" then
    planBBlocks c (_split_text_by_punctuation (pystripS seg.text).toList seg.timestamp)
  else if pystripS seg.text ≠ "" then
    ([{ index := c + 1, startStr := "00:00:00,000", endStr := "00:00:00,000",
        text := pystripS seg.text }], c + 1)
  else ([], c)

/-- The whole generation loop over the model output. -/
def extractLoop : ℕ → List FunSeg → List FunBlock × ℕ
  | c, [] => ([], c)
  | c, seg :: rest =>
    let r1 := segBlocks c seg
    let r2 := extractLoop r1.2 rest
    (r1.1 ++ r2.1, r2.2)

/-- Blocks written by `extract_with_funasr` for the model output. -/
def extract_with_funasr_blocks (segs : List FunSeg) : List FunBlock :=
  (extractLoop 0 segs).1

/-- `extract_with_funasr` returns `subtitle_count > 0` (line 434). -/
def extract_with_funasr_success (segs : List FunSeg) : Bool :=
  decide (0 < (extractLoop 0 segs).2)

theorem planABlocks_spec (sents : List FunSent) :
    ∀ c, (planABlocks c sents).1.map FunBlock.index
        = List.range' (c + 1) (planABlocks c sents).1.length ∧
      (planABlocks c sents).2 = c + (planABlocks c sents).1.length := by
  induction sents with
  | nil => intro c; simp [planABlocks]
  | cons sent rest ih =>
    intro c
    simp only [planABlocks]
    by_cases h : pystripS sent.text ≠ ""
    · rw [if_pos h]
      obtain ⟨ih1, ih2⟩ := ih (c + 1)
      refine ⟨?_, by simp only [List.length_cons, ih2]; omega⟩
      simp only [List.map_cons, List.length_cons, List.range'_succ, ih1]
    · rw [if_neg h]
      exact ih c

theorem planBBlocks_spec (sps : List SentSpan) :
    ∀ c, (planBBlocks c sps).1.map FunBlock.index
        = List.range' (c + 1) (planBBlocks c sps).1.length ∧
      (planBBlocks c sps).2 = c + (planBBlocks c sps).1.length := by
  induction sps with
  | nil => intro c; simp [planBBlocks]
  | cons sp rest ih =>
    intro c
    simp only [planBBlocks]
    obtain ⟨ih1, ih2⟩ := ih (c + 1)
    refine ⟨?_, by simp only [List.length_cons, ih2]; omega⟩
    simp only [List.map_cons, List.length_cons, List.range'_succ, ih1]

theorem segBlocks_spec (seg : FunSeg) (c : ℕ) :
    (segBlocks c seg).1.map FunBlock.index
        = List.range' (c + 1) (segBlocks c seg).1.length ∧
      (segBlocks c seg).2 = c + (segBlocks c seg).1.length := by
  rw [segBlocks]
  split
  · exact planABlocks_spec _ c
  · split
    · exact planBBlocks_spec _ c
    · split
      · simp [List.range'_succ]
      · simp

theorem extractLoop_spec (segs : List FunSeg) :
    ∀ c, (extractLoop c segs).1.map FunBlock.index
        = List.range' (c + 1) (extractLoop c segs).1.length ∧
      (extractLoop c segs).2 = c + (extractLoop c segs).1.length := by
  induction segs with
  | nil => intro c; simp [extractLoop]
  | cons seg rest ih =>
    intro c
    obtain ⟨h1, h2⟩ := segBlocks_spec seg c
    obtain ⟨h3, h4⟩ := ih (segBlocks c seg).2
    have hA : extractLoop c (seg :: rest)
        = ((segBlocks c seg).1 ++ (extractLoop (segBlocks c seg).2 rest).1,
          (extractLoop (segBlocks c seg).2 rest).2) := rfl
    rw [hA]
    constructor
    · show ((segBlocks c seg).1 ++ (extractLoop (segBlocks c seg).2 rest).1).map FunBlock.index
        = List.range' (c + 1) ((segBlocks c seg).1 ++ (extractLoop (segBlocks c seg).2 rest).1).length
      rw [List.map_append, h1, h3, List.length_append]
      have := List.range'_append (c + 1) (segBlocks c seg).1.length
        (extractLoop (segBlocks c seg).2 rest).1.length 1
      rw [Nat.add_comm (extractLoop (segBlocks c seg).2 rest).1.length
        (segBlocks c seg).1.length] at this
      rw [← this]
      congr 2
      omega
    · show (extractLoop (segBlocks c seg).2 rest).2
        = c + ((segBlocks c seg).1 ++ (extractLoop (segBlocks c seg).2 rest).1).length
      rw [List.length_append]
      omega

/-- The counter equals the number of written blocks, so success is exactly
"at least one block was written". -/
theorem extract_success_iff (segs : List FunSeg) :
    extract_with_funasr_success segs = true ↔ extract_with_funasr_blocks segs ≠ [] := by
  obtain ⟨-, h2⟩ := extractLoop_spec segs 0
  rw [extract_with_funasr_success, extract_with_funasr_blocks]
  rw [decide_eq_true_iff, h2]
  simp [List.length_pos_iff_ne_nil]

/-! ## Content identifier extraction

Model of `extract_bvid` (extract_subtitle_funasr.py, lines 25-31): leftmost
match of the regular expression `BV[a-zA-Z0-9]{10}`, or the empty string. -/

/-- Does the character list start with `BV` followed by ten ASCII
alphanumerics? -/
def bvAt : List Char → Bool
  | 'B' :: 'V' :: rest => decide (10 ≤ rest.length) && (rest.take 10).all Char.isAlphanum
  | _ => false

/-- Leftmost window matching the BV pattern, as `re.search` finds it. -/
def bvSearch : List Char → List Char
  | [] => []
  | c :: rest => if bvAt (c :: rest) then (c :: rest).take 12 else bvSearch rest

/-- Model of `extract_bvid`. -/
def extract_bvid (s : String) : String := String.mk (bvSearch s.toList)

/-! ## Subtitle Source Resolver

Model of `smart_subtitle_extraction` (extract_subtitle_funasr.py, lines
451-503).  The outcomes of the effectful tier bodies are an environment;
the resolver's control flow is translated directly, and the list of tiers
whose step was entered is logged alongside the result. -/

/-- The four acquisition tiers. -/
inductive Tier
  | api
  | embedded
  | ocr
  | asr
deriving DecidableEq, Repr

/-- Outcomes of the external calls made by the resolver's tier bodies. -/
structure ResolveEnv where
  apiOk : Bool
  embeddedOk : Bool
  frameOk : Bool
  burnedDetected : Bool
  ocrOk : Bool
  asrOk : Bool

/-- Step 3 (lines 499-503): the FunASR tier, then the failure outcome. -/
def asrStep (env : ResolveEnv) (pre : List Tier) : (Bool × String) × List Tier :=
  if env.asrOk then ((true, "funasr"), pre ++ [Tier.asr])
  else ((false, "failed"), pre ++ [Tier.asr])

/-- Steps 1-3 (lines 472-503): embedded probe, burned-caption detection and
extraction, speech transcription. -/
def stepsAfterApi (env : ResolveEnv) (pre : List Tier) : (Bool × String) × List Tier :=
  if env.embeddedOk then ((true, "embedded"), pre ++ [Tier.embedded])
  else if env.frameOk then
    if env.burnedDetected then
      if env.ocrOk then ((true, "ocr"), pre ++ [Tier.embedded, Tier.ocr])
      else asrStep env (pre ++ [Tier.embedded, Tier.ocr])
    else asrStep env (pre ++ [Tier.embedded, Tier.ocr])
  else asrStep env (pre ++ [Tier.embedded, Tier.ocr])

/-- Model of `smart_subtitle_extraction video_path output_srt video_url`:
`bvid = extract_bvid(video_url) or extract_bvid(video_path)`, the platform
tier if `bvid` is non-empty, then the remaining tiers.  Returns the
`(success, mode)` pair and the entered-tier log. -/
def smart_subtitle_extraction (videoPath videoUrl : String) (env : ResolveEnv) :
    (Bool × String) × List Tier :=
  let bvid := if extract_bvid videoUrl ≠ "" then extract_bvid videoUrl
              else extract_bvid videoPath
  if bvid ≠ "" then
    if env.apiOk then ((true, "bilibili_api"), [Tier.api])
    else stepsAfterApi env [Tier.api]
  else stepsAfterApi env []

/-! ## Platform tier wrapper

Model of `get_bilibili_subtitle` (extract_subtitle_funasr.py, lines 34-67):
when the sibling fetch script exists, run it and report success exactly for
exit code 0 with an output file of more than 10 bytes; timeouts and
exceptions report failure; without the script, fall back to
`_simple_bilibili_fetch`. -/

/-- Failure modes of the subprocess call. -/
inductive RunErr
  | timeout
  | exc
deriving DecidableEq, Repr

/-- Outcomes of the wrapper's external calls. -/
structure PlatEnv where
  scriptExists : Bool
  runResult : Except RunErr ℤ
  outExists : Bool
  outSize : ℕ
  simpleFetchOk : Bool

/-- Model of `get_bilibili_subtitle`. -/
def get_bilibili_subtitle (env : PlatEnv) : Bool :=
  if env.scriptExists then
    match env.runResult with
    | Except.ok rc => decide (rc = 0) && env.outExists && decide (10 < env.outSize)
    | Except.error _ => false
  else env.simpleFetchOk

/-! ## Credential acquisition chain

Model of `get_bilibili_cookies` and its three strategies
(fetch_bilibili_subtitle.py, lines 68-250).  A cookie jar is an association
list; each strategy's external interaction is an environment field, with
`Except` marking interactions that may raise (every `except` clause in the
source converts the exception into an empty jar). -/

/-- Cookie jar: cookie names mapped to values. -/
abbrev CookieDict := List (String × String)

/-- Python `dict.get(k)`, first binding wins. -/
def dictGet (d : CookieDict) (k : String) : Option String :=
  (d.find? (fun p => p.1 == k)).map (fun p => p.2)

/-- Truthiness of `cookies.get("SESSDATA")`: present and non-empty. -/
def hasSess (d : CookieDict) : Bool :=
  match dictGet d "SESSDATA" with
  | some v => decide (v ≠ "")
  | none => false

/-- Outcomes of the chain's external interactions. -/
structure CookieEnv where
  ytdlp : String → Except Unit (Option CookieDict)
  bc3 : String → Except Unit CookieDict
  envSessdata : String
  envBiliJct : String
  configFile : Option CookieDict

/-- Strategy 1, `get_cookies_via_ytdlp` (lines 68-120): run yt-dlp for one
browser; `ok none` is "no cookie file exported", `ok (some d)` the parsed
jar, `error` any raised exception — all failure paths return the empty
jar, a jar without a session token is discarded. -/
def get_cookies_via_ytdlp (env : CookieEnv) (browser : String) : CookieDict :=
  match env.ytdlp browser with
  | Except.error _ => []
  | Except.ok none => []
  | Except.ok (some d) => if hasSess d then d else []

/-- Strategy 2, `get_cookies_via_browser_cookie3` (lines 123-162): only the
four browsers in its map are supported, exceptions give the empty jar, a
jar without a session token is discarded. -/
def get_cookies_via_browser_cookie3 (env : CookieEnv) (browser : String) : CookieDict :=
  match env.bc3 browser with
  | Except.error _ => []
  | Except.ok d =>
    if browser ∈ ["chrome", "firefox", "edge", "opera"] then
      if hasSess d then d else []
    else []

/-- Strategy 3, `get_cookies_from_config` (lines 165-196): environment
variables first, then the fixed-path Netscape cookie file. -/
def get_cookies_from_config (env : CookieEnv) : CookieDict :=
  if env.envSessdata ≠ "" then
    ("SESSDATA", env.envSessdata) ::
      (if env.envBiliJct ≠ "" then [("bili_jct", env.envBiliJct)] else [])
  else
    match env.configFile with
    | some d => if hasSess d then d else []
    | none => []

/-- Browser preference list (lines 228-231): the preferred browser, then
each default not already present. -/
def browserOrder (p : String) : List String :=
  ["chrome", "firefox", "edge", "safari"].foldl
    (fun acc b => if b ∈ acc then acc else acc ++ [b]) [p]

/-- One strategy loop (lines 234-243): first browser whose jar has a
session token wins. -/
def tryLoop (f : String → CookieDict) : List String → Option CookieDict
  | [] => none
  | b :: rest => if hasSess (f b) then some (f b) else tryLoop f rest

/-- Model of `get_bilibili_cookies` (lines 219-250). -/
def get_bilibili_cookies (p : String) (env : CookieEnv) : CookieDict :=
  match tryLoop (get_cookies_via_ytdlp env) (browserOrder p) with
  | some d => d
  | none =>
    match tryLoop (get_cookies_via_browser_cookie3 env) (browserOrder p) with
    | some d => d
    | none =>
      if hasSess (get_cookies_from_config env) then get_cookies_from_config env else []

/-- The loop picks exactly the first jar with a session token. -/
theorem tryLoop_eq_find (f : String → CookieDict) :
    ∀ l : List String, tryLoop f l = (l.map f).find? hasSess := by
  intro l
  induction l with
  | nil => simp [tryLoop]
  | cons b rest ih =>
    simp only [tryLoop, List.map_cons, List.find?]
    by_cases h : hasSess (f b)
    · simp [h]
    · simp only [Bool.not_eq_true] at h
      simp [h, ih]

/-- The full ordered list of per-attempt jars the chain inspects. -/
def attemptResults (p : String) (env : CookieEnv) : List CookieDict :=
  (browserOrder p).map (get_cookies_via_ytdlp env) ++
    (browserOrder p).map (get_cookies_via_browser_cookie3 env) ++
    [get_cookies_from_config env]

/-- The chain returns the first attempt with a session token, else the
empty jar. -/
theorem get_bilibili_cookies_eq_first (p : String) (env : CookieEnv) :
    get_bilibili_cookies p env = ((attemptResults p env).find? hasSess).getD [] := by
  rw [get_bilibili_cookies, attemptResults]
  rw [tryLoop_eq_find, tryLoop_eq_find]
  rw [List.find?_append, List.find?_append]
  rcases h1 : ((browserOrder p).map (get_cookies_via_ytdlp env)).find? hasSess with - | d1
  · rcases h2 : ((browserOrder p).map (get_cookies_via_browser_cookie3 env)).find? hasSess
      with - | d2
    · simp only [Option.none_or]
      rcases h3 : hasSess (get_cookies_from_config env) with - | -
      · simp [List.find?, h3]
      · simp [List.find?, h3]
    · simp
  · simp

/-- The preference order is the preferred browser followed by the defaults
with the preferred one removed; it never holds duplicates. -/
theorem browserOrder_spec (p : String) :
    browserOrder p = p :: (["chrome", "firefox", "edge", "safari"].filter (fun b => b ≠ p)) ∧
      (browserOrder p).Nodup := by
  have hb : browserOrder p
      = p :: (["chrome", "firefox", "edge", "safari"].filter (fun b => b ≠ p)) := by
    rw [browserOrder]
    by_cases h1 : "chrome" = p <;> by_cases h2 : "firefox" = p <;>
      by_cases h3 : "edge" = p <;> by_cases h4 : "safari" = p <;>
      simp_all [List.foldl, List.filter] <;> simp_all [eq_comm]
  refine ⟨hb, ?_⟩
  rw [hb, List.nodup_cons]
  constructor
  · intro hmem
    have := List.of_mem_filter hmem
    simp at this
  · exact List.Nodup.filter _ (by decide)

/-! ## Burned-caption OCR extraction

Models for `extract_burned_subtitle_ocr` (extract_subtitle_funasr.py, lines
215-280): the duck-typed confidence coercion with its 0.0 fallback, the
strict 0.7 keep threshold, and the per-frame capture/OCR/delete loop with
its (missing) cleanup on the exception path. -/

/-- Confidence value as delivered by the OCR backend: number or string. -/
inductive ConfVal
  | num (q : ℚ)
  | str (s : String)

/-- Python `float(s)` on a string, for the plain decimal forms the OCR
backend produces: optional surrounding whitespace, optional sign, digits
with an optional fractional part (exponent and inf/nan forms, which cannot
occur here, are unsupported and coerce to failure). -/
def parseFloatCore (cs2 : List Char) : Option ℚ :=
  match splitChar '.' cs2 with
  | [ip] => if ip ≠ [] ∧ ip.all isDigitChar = true then some ((foldVal ip : ℚ)) else none
  | [ip, fp] =>
    if (ip ≠ [] ∨ fp ≠ []) ∧ ip.all isDigitChar = true ∧ fp.all isDigitChar = true then
      some ((foldVal ip : ℚ) + (foldVal fp : ℚ) / (10 ^ fp.length : ℚ))
    else none
  | _ => none

/-- Python `float(s)` on a string: strip, sign, decimal core. -/
def parseFloatStr (s : String) : Option ℚ :=
  match pystrip s.toList with
  | '-' :: rest => (parseFloatCore rest).map (fun q => -q)
  | '+' :: rest => parseFloatCore rest
  | cs => parseFloatCore cs

/-- The coercion of lines 248-252: `float(confidence)`, with every
`ValueError`/`TypeError` turned into `0.0` instead of raised. -/
def coerceConf : ConfVal → ℚ
  | ConfVal.num q => q
  | ConfVal.str s => (parseFloatStr s).getD 0

/-- One OCR detection: `line[1]` text and `line[2]` confidence. -/
structure OcrLine where
  text : String
  confidence : ConfVal

/-- Texts-collection loop of lines 243-254 (`if line:` models the
falsy-line guard): a line's text is kept iff its coerced confidence
strictly exceeds 0.7. -/
def keptTexts : List (Option OcrLine) → List String
  | [] => []
  | none :: rest => keptTexts rest
  | some l :: rest =>
    if (7 : ℚ) / 10 < coerceConf l.confidence then l.text :: keptTexts rest
    else keptTexts rest

/-- The loop result is the filter-then-project of the present lines. -/
theorem keptTexts_eq_filter (lines : List (Option OcrLine)) :
    keptTexts lines = ((lines.filterMap id).filter
        (fun l => decide ((7 : ℚ) / 10 < coerceConf l.confidence))).map OcrLine.text := by
  induction lines with
  | nil => simp [keptTexts]
  | cons o rest ih =>
    cases o with
    | none => simpa [keptTexts] using ih
    | some l =>
      simp only [keptTexts, List.filterMap_cons, id, List.filter_cons]
      by_cases h : (7 : ℚ) / 10 < coerceConf l.confidence
      · simp [h, ih]
      · simp [h, ih]

/-- One SRT entry assembled by the extraction loop. -/
structure OcrSub where
  index : ℕ
  startStr : String
  endStr : String
  text : String

/-- Outcomes of the loop's external calls: frame capture per sample time
(`none` is the caught-and-swallowed capture failure, path otherwise) and
the OCR call per frame path (`error` is a raised exception, `ok none` an
empty/absent `result[0]`). -/
structure OcrEnv where
  duration : ℕ
  capture : ℕ → Option String
  ocr : String → Except Unit (Option (List (Option OcrLine)))

/-- Sample times `range(0, int(duration), 2)` (line 234). -/
def sampleTimes (d : ℕ) : List ℕ := (List.range ((d + 1) / 2)).map (fun k => 2 * k)

/-- Extraction loop of lines 234-266, tracking created and deleted frame
files.  On the normal path the frame is deleted after its OCR call; an
exception inside the loop propagates to the function-level handler (lines
278-280), so the loop aborts with the current frame still on disk. -/
def ocrLoopGo (env : OcrEnv) :
    List ℕ → List String → List String → List OcrSub →
      Bool × List String × List String × List OcrSub
  | [], cr, dl, subs => (true, cr, dl, subs)
  | t :: rest, cr, dl, subs =>
    match env.capture t with
    | none => ocrLoopGo env rest cr dl subs
    | some p =>
      match env.ocr p with
      | Except.error _ => (false, cr ++ [p], dl, subs)
      | Except.ok res =>
        let texts := keptTexts (res.getD [])
        let subs2 :=
          if texts ≠ [] then
            subs ++ [{ index := subs.length + 1, startStr := formatTimestampS (t : ℚ),
                       endStr := formatTimestampS ((t : ℚ) + 2),
                       text := String.intercalate " " texts }]
          else subs
        ocrLoopGo env rest (cr ++ [p]) (dl ++ [p]) subs2

/-- Model of `extract_burned_subtitle_ocr`: the loop from an empty state;
the returned flag is the function's boolean result (`True` after the SRT is
written, `False` when an exception reached the handler). -/
def extract_burned_subtitle_ocr (env : OcrEnv) :
    Bool × List String × List String × List OcrSub :=
  ocrLoopGo env (sampleTimes env.duration) [] [] []

theorem ocrLoopGo_cleanup (env : OcrEnv) :
    ∀ (ts : List ℕ) (cr dl : List String) (subs : List OcrSub),
      ((ocrLoopGo env ts cr dl subs).1 = true →
        ∃ news, (ocrLoopGo env ts cr dl subs).2.1 = cr ++ news ∧
          (ocrLoopGo env ts cr dl subs).2.2.1 = dl ++ news) ∧
      ((ocrLoopGo env ts cr dl subs).1 = false →
        ∃ news pth, (ocrLoopGo env ts cr dl subs).2.1 = cr ++ news ++ [pth] ∧
          (ocrLoopGo env ts cr dl subs).2.2.1 = dl ++ news) := by
  intro ts
  induction ts with
  | nil =>
    intro cr dl subs
    refine ⟨fun _ => ⟨[], by simp [ocrLoopGo]⟩, fun hf => ?_⟩
    simp [ocrLoopGo] at hf
  | cons t rest ih =>
    intro cr dl subs
    rcases hc : env.capture t with - | p
    · have hstep : ocrLoopGo env (t :: rest) cr dl subs = ocrLoopGo env rest cr dl subs := by
        simp only [ocrLoopGo, hc]
      rw [hstep]
      exact ih cr dl subs
    · rcases ho : env.ocr p with a | res
      · have hstep : ocrLoopGo env (t :: rest) cr dl subs = (false, cr ++ [p], dl, subs) := by
          simp only [ocrLoopGo, hc, ho]
        rw [hstep]
        exact ⟨fun ht => by simp at ht, fun _ => ⟨[], p, by simp, by simp⟩⟩
      · have hstep : ocrLoopGo env (t :: rest) cr dl subs
            = ocrLoopGo env rest (cr ++ [p]) (dl ++ [p])
              (if keptTexts (res.getD []) ≠ [] then
                subs ++ [{ index := subs.length + 1, startStr := formatTimestampS (t : ℚ),
                           endStr := formatTimestampS ((t : ℚ) + 2),
                           text := String.intercalate " " (keptTexts (res.getD [])) }]
              else subs) := by
          simp only [ocrLoopGo, hc, ho]
        rw [hstep]
        obtain ⟨iht, ihf⟩ := ih (cr ++ [p]) (dl ++ [p]) _
        refine ⟨fun ht => ?_, fun hf => ?_⟩
        · obtain ⟨news, hn1, hn2⟩ := iht ht
          exact ⟨[p] ++ news, by simpa using hn1, by simpa using hn2⟩
        · obtain ⟨news, pth, hn1, hn2⟩ := ihf hf
          exact ⟨[p] ++ news, pth, by simpa using hn1, by simpa using hn2⟩

/-! # Claim theorems -/

/-- Source payload for the C1 counterexample. -/
def c1Body : List BiliItem :=
  [{ fromS := 5, toS := 6, content := "b" },
   { fromS := 1, toS := 2, content := "" },
   { fromS := 0, toS := 1, content := "a" }]

/-- C1 counterexample: the platform-tier conversion drops an empty-text
item but keeps the `enumerate` counter, so the written indices are `[1, 3]`
— not a dense renumbering — and the start times are written in source
order, here `[5, 0]`, so they are not strictly ordered by start either. -/
theorem claim_C1_counterexample :
    (fetch_subtitle_entries c1Body).map SrtEntry.index = [1, 3] ∧
      (fetch_subtitle_entries c1Body).map SrtEntry.startSec = [5, 0] ∧
      (fetch_subtitle_entries c1Body).map SrtEntry.index ≠ List.range' 1 2 ∧
      ¬ List.Chain' (fun a b => a.startSec < b.startSec) (fetch_subtitle_entries c1Body) := by
  have he : fetch_subtitle_entries c1Body =
      [{ index := 1, startSec := 5, endSec := 6, text := "b" },
       { index := 3, startSec := 0, endSec := 1, text := "a" }] := by
    with_unfolding_all decide
  refine ⟨by rw [he]; rfl, by rw [he]; rfl, by rw [he]; decide, ?_⟩
  rw [he]
  intro hch
  have h5 : (5 : ℚ) < 0 := (List.chain'_cons.mp hch).1
  exact absurd h5 (by norm_num)

/-- C1 (amended): in the ASR tier the written entries carry a dense 1-based
renumbering; in the platform tier each written entry keeps the 1-based
position of its source item, so indices are strictly increasing but show
gaps exactly at dropped empty-text items, and entries are written in source
order with the source's start times (ordered by start only when the source
is). -/
theorem claim_C1 :
    (∀ segs : List FunSeg,
      (extract_with_funasr_blocks segs).map FunBlock.index
        = List.range' 1 (extract_with_funasr_blocks segs).length) ∧
    (∀ body : List BiliItem,
      fetch_subtitle_entries body = (body.enumFrom 1).filterMap
        (fun p => if pystripS p.2.content ≠ "" then
          some { index := p.1, startSec := p.2.fromS, endSec := p.2.toS,
                 text := pystripS p.2.content }
        else none)) ∧
    (∀ body : List BiliItem,
      List.Chain' (fun a b => a.index < b.index) (fetch_subtitle_entries body)) ∧
    (∀ body : List BiliItem,
      (fetch_subtitle_entries body).map SrtEntry.startSec =
        (body.filter (fun it => pystripS it.content ≠ "")).map BiliItem.fromS) := by
  refine ⟨?_, ?_, ?_, ?_⟩
  · intro segs
    exact (extractLoop_spec segs 0).1
  · intro body
    exact fetchWriteGo_eq_enum body 1
  · intro body
    exact fetchWriteGo_chain body 1
  · exact fetch_entries_starts

/-- Timestamp array for the C3 counterexample: 90 uniform entries. -/
def c3Ts : List (ℤ × ℤ) := (List.range 90).map (fun k => ((100 * k : ℤ), (100 * k + 50 : ℤ)))

/-- C3 counterexample: for the 10-character text `abcdefg。xy` with 90
timestamps, the break at offset 7 maps in binary64 to index
`int(7/10*90) = 62`, while the claimed exact formula gives
`floor(7*90/10) = 63`, so the first span ends at `c3Ts[62].end = 6250`, not
at `c3Ts[63].end = 6350` as the claim's formula states. -/
theorem claim_C3_counterexample :
    (_split_text_by_punctuation "abcdefg。xy".toList c3Ts).map SentSpan.end_ms
        = [6250, 8150] ∧
      tsIdxF 10 90 7 = 62 ∧ tsIdxExact 10 90 7 = 63 ∧
      (c3Ts.getD (tsIdxExact 10 90 7) (0, 0)).2 = 6350 ∧
      ((_split_text_by_punctuation "abcdefg。xy".toList c3Ts).map SentSpan.end_ms).getD 0 0
        ≠ (c3Ts.getD (tsIdxExact 10 90 7) (0, 0)).2 := by
  refine ⟨?_, ?_, ?_, ?_, ?_⟩ <;> decide

/-- C3 (amended): for every text and non-empty timestamp array, the
splitter emits exactly the non-whitespace chunks of the spec-side chunking,
and each span's timestamps come from the binary64 evaluation of
`min(int(offset / text_len * ts_len), ts_len - 1)` — the span's first
character offset for the start and its last character offset (the break
character) for the end — which can differ by one from the exact clamped
`floor(offset / text_len * ts_len)`; on the 12-character example
`今天天气很好，适合出门。` with 12 uniform timestamps the two agree, and
exactly one span is produced, ending at the final timestamp's end. -/
theorem claim_C3 (text : List Char) (ts : List (ℤ × ℤ)) (hts : ts ≠ []) :
    _split_text_by_punctuation text ts = (specChunks text).filterMap
      (fun ch => if pystrip ch.2.2 = [] then none
        else some { text := pystrip ch.2.2,
                    start_ms := (ts.getD (tsIdxF text.length ts.length ch.1) (0, 0)).1,
                    end_ms := (ts.getD (tsIdxF text.length ts.length ch.2.1) (0, 0)).2 }) ∧
    (_split_text_by_punctuation "今天天气很好，适合出门。".toList
        ((List.range 12).map (fun k => ((100 * k : ℤ), (100 * k + 50 : ℤ)))) =
      [{ text := "今天天气很好，适合出门。".toList, start_ms := 0, end_ms := 1150 }]) := by
  constructor
  · have htslen : 0 < ts.length := List.length_pos_iff_ne_nil.mpr hts
    rw [split_eq_specChunks]
    have hfun : chunkToSpan text.length ts.length ts = fun (ch : ℕ × ℕ × List Char) =>
        if pystrip ch.2.2 = [] then none
        else some { text := pystrip ch.2.2,
                    start_ms := (ts.getD (tsIdxF text.length ts.length ch.1) (0, 0)).1,
                    end_ms := (ts.getD (tsIdxF text.length ts.length ch.2.1) (0, 0)).2 } := by
      funext ch
      rw [chunkToSpan]
      by_cases h : pystrip ch.2.2 = []
      · simp [h]
      · simp [h, htslen]
    rw [hfun]
  · decide

/-- C3 witness: the amended correspondence instantiated at a one-character
text with one timestamp. -/
theorem claim_C3_witness :
    _split_text_by_punctuation ['好'] [((5 : ℤ), (9 : ℤ))] =
      (specChunks ['好']).filterMap
        (fun ch => if pystrip ch.2.2 = [] then none
          else some { text := pystrip ch.2.2,
                      start_ms := ([((5 : ℤ), (9 : ℤ))].getD (tsIdxF 1 1 ch.1) (0, 0)).1,
                      end_ms := ([((5 : ℤ), (9 : ℤ))].getD (tsIdxF 1 1 ch.2.1) (0, 0)).2 }) :=
  (claim_C3 ['好'] [(5, 9)] (by decide)).1

/-- C4 counterexample: (a) at 360000 seconds (100 hours) the hour field is
three digits, so the output is `100:00:00,000` and the exact
`HH:MM:SS,mmm` shape fails even though the duration is non-negative;
(b) at the double `8998192055486251 / 2 ^ 53` the binary64 multiply
`(seconds % 1) * 1000` rounds up, so the program prints `00:00:00,999`
— millisecond field 999 — while exact truncation `⌊1000 * q⌋` gives 998:
the millisecond field is not simply the truncated exact product. -/
theorem claim_C4_counterexample :
    ((0 : ℚ) ≤ 360000 ∧ format_timestamp 360000 = "100:00:00,000".toList ∧
      ¬ shapeSrt (format_timestamp 360000)) ∧
      FloatVal ((8998192055486251 : ℚ) / 9007199254740992) ∧
      format_timestamp ((8998192055486251 : ℚ) / 9007199254740992)
        = "00:00:00,999".toList ∧
      (⌊(8998192055486251 : ℚ) / 9007199254740992 * 1000⌋).toNat = 998 := by
  refine ⟨⟨by norm_num, ?_, ?_⟩, ⟨8998192055486251, -53, by norm_num, ?_⟩, ?_, ?_⟩
  · with_unfolding_all decide
  · with_unfolding_all decide
  · rw [show ((-53 : ℤ)) = -((53 : ℕ) : ℤ) by norm_num, pow2_neg_natCast]
    norm_num
  · with_unfolding_all decide
  · with_unfolding_all decide

/-- C4 (amended): for every non-negative duration, (a) below 100 hours, if
the duration is binary64-representable the formatter produces the
zero-padded `HH:MM:SS,mmm` shape; (b) parsing the produced string back
always recovers `1000 * ⌊seconds⌋` plus the millisecond field, which is
the rounded binary64 product `(seconds % 1) * 1000` truncated to an
integer; and (c) whenever that product is exact the round-trip recovers
exactly `⌊1000 * seconds⌋` milliseconds. -/
theorem claim_C4 (q : ℚ) (hq : 0 ≤ q) :
    (q < 360000 → FloatVal q → shapeSrt (format_timestamp q)) ∧
      parse_srt_timestamp (format_timestamp q)
        = some (1000 * (⌊q⌋).toNat + fmtMillis q) ∧
      (fl64 (pymod q 1 * 1000) = pymod q 1 * 1000 →
        parse_srt_timestamp (format_timestamp q) = some ((⌊q * 1000⌋).toNat)) :=
  ⟨fun hlt hf => format_timestamp_shape q hq hlt hf,
   format_timestamp_roundtrip q hq,
   fun hex => format_timestamp_roundtrip_exact q hq hex⟩

/-- C4 witness: 2260.5 seconds is a representable double whose millisecond
product is exact; the string is `00:37:40,500` in shape and parses back
to 2260500 ms, which is `⌊1000 * q⌋`. -/
theorem claim_C4_witness :
    (0 : ℚ) ≤ 4521 / 2 ∧ (4521 : ℚ) / 2 < 360000 ∧ FloatVal ((4521 : ℚ) / 2) ∧
      fl64 (pymod ((4521 : ℚ) / 2) 1 * 1000) = pymod ((4521 : ℚ) / 2) 1 * 1000 ∧
      shapeSrt (format_timestamp ((4521 : ℚ) / 2)) ∧
      parse_srt_timestamp (format_timestamp ((4521 : ℚ) / 2)) = some 2260500 ∧
      (⌊(4521 : ℚ) / 2 * 1000⌋).toNat = 2260500 := by
  have hq : (0 : ℚ) ≤ 4521 / 2 := by norm_num
  have hfv : FloatVal ((4521 : ℚ) / 2) := by
    refine ⟨4521, -1, by norm_num, ?_⟩
    rw [show ((-1 : ℤ)) = -((1 : ℕ) : ℤ) by norm_num, pow2_neg_natCast]
    norm_num
  have hex : fl64 (pymod ((4521 : ℚ) / 2) 1 * 1000) = pymod ((4521 : ℚ) / 2) 1 * 1000 :=
    Rat.ext (by with_unfolding_all decide) (by with_unfolding_all decide)
  have h := claim_C4 ((4521 : ℚ) / 2) hq
  have hfloor : (⌊(4521 : ℚ) / 2 * 1000⌋).toNat = 2260500 := by
    rw [show (4521 : ℚ) / 2 * 1000 = ((2260500 : ℤ) : ℚ) by norm_num, Int.floor_intCast]
    rfl
  refine ⟨hq, by norm_num, hfv, hex, h.1 (by norm_num) hfv, ?_, hfloor⟩
  rw [h.2.2 hex, hfloor]

/-- C5 (confirmed): the splitter is the spec-side chunking followed by span
construction; every chunk ends at a character satisfying the break
condition (sentence-ending punctuation, or comma-class punctuation with a
run longer than 25 characters, or end of text) and contains no earlier
character satisfying it, and the chunks partition the text; in particular a
40-character run with a comma at position 26 and no terminal punctuation
breaks exactly at that comma. -/
theorem claim_C5 (text : List Char) (ts : List (ℤ × ℤ)) :
    _split_text_by_punctuation text ts =
        (specChunks text).filterMap (chunkToSpan text.length ts.length ts) ∧
      (∀ ch ∈ specChunks text, goodChunk text.length 0 ch) ∧
      (text ≠ [] → ((specChunks text).map (fun ch => ch.2.2)).flatten = text) ∧
      (_split_text_by_punctuation
          (List.replicate 25 'a' ++ '，' :: List.replicate 14 'b') [] =
        [{ text := List.replicate 25 'a' ++ ['，'], start_ms := 0, end_ms := 0 },
         { text := List.replicate 14 'b', start_ms := 0, end_ms := 0 }]) := by
  refine ⟨split_eq_specChunks text ts, ?_, ?_, by decide⟩
  · intro ch hch
    rcases chunksGo_good text.length text 0 [] 0 (by simp) (by simp) ch hch
      with ⟨-, -, hg⟩ | hg
    · exact hg
    · exact hg
  · intro hne
    exact chunksGo_join text.length text 0 [] 0 (by simp) hne

/-- C5 witness: the chunk characterization and partition at the concrete
text `ab。cd` (split into `ab。` and `cd`). -/
theorem claim_C5_witness :
    _split_text_by_punctuation "ab。cd".toList [] =
        (specChunks "ab。cd".toList).filterMap (chunkToSpan 5 0 []) ∧
      ((specChunks "ab。cd".toList).map (fun ch => ch.2.2)).flatten = "ab。cd".toList := by
  have h := claim_C5 "ab。cd".toList []
  exact ⟨h.1, h.2.2.1 (by decide)⟩

/-- C2 (confirmed): the resolver enters tiers in the fixed order platform
API, embedded, OCR, ASR (the entered-tier log is always a sublist of that
order); the platform tier is entered iff a BV id is extractable from the
URL or the path; a successful embedded probe means the OCR and ASR tiers
are never entered; the returned mode tag is the first successful tier's
tag; and the resolver fails exactly when every tier fails. -/
theorem claim_C2 (videoPath videoUrl : String) (env : ResolveEnv) :
    (Tier.api ∈ (smart_subtitle_extraction videoPath videoUrl env).2 ↔
        (extract_bvid videoUrl ≠ "" ∨ extract_bvid videoPath ≠ "")) ∧
      List.Sublist (smart_subtitle_extraction videoPath videoUrl env).2
        [Tier.api, Tier.embedded, Tier.ocr, Tier.asr] ∧
      (env.embeddedOk = true →
        Tier.ocr ∉ (smart_subtitle_extraction videoPath videoUrl env).2 ∧
          Tier.asr ∉ (smart_subtitle_extraction videoPath videoUrl env).2) ∧
      (smart_subtitle_extraction videoPath videoUrl env).1 =
        (if (extract_bvid videoUrl ≠ "" ∨ extract_bvid videoPath ≠ "") ∧ env.apiOk = true
          then (true, "bilibili_api")
        else if env.embeddedOk = true then (true, "embedded")
        else if env.frameOk = true ∧ env.burnedDetected = true ∧ env.ocrOk = true
          then (true, "ocr")
        else if env.asrOk = true then (true, "funasr")
        else (false, "failed")) ∧
      ((smart_subtitle_extraction videoPath videoUrl env).1.1 = false ↔
        (¬ ((extract_bvid videoUrl ≠ "" ∨ extract_bvid videoPath ≠ "") ∧ env.apiOk = true) ∧
          env.embeddedOk = false ∧
          ¬ (env.frameOk = true ∧ env.burnedDetected = true ∧ env.ocrOk = true) ∧
          env.asrOk = false)) := by
  rcases env with ⟨a, e, f, bd, o, s⟩
  by_cases h1 : extract_bvid videoUrl ≠ ""
  · by_cases h2 : extract_bvid videoPath ≠ "" <;>
      cases a <;> cases e <;> cases f <;> cases bd <;> cases o <;> cases s <;>
      simp_all [smart_subtitle_extraction, stepsAfterApi, asrStep] <;> decide
  · by_cases h2 : extract_bvid videoPath ≠ "" <;>
      cases a <;> cases e <;> cases f <;> cases bd <;> cases o <;> cases s <;>
      simp_all [smart_subtitle_extraction, stepsAfterApi, asrStep] <;> decide

/-- C2 witness: with a BV id in the URL, a failing platform tier and a
successful embedded probe, the platform tier is entered, the OCR and ASR
tiers are never entered, and the result is the embedded tier's tag. -/
theorem claim_C2_witness :
    Tier.api ∈ (smart_subtitle_extraction "video.mp4"
        "https://www.bilibili.com/video/BV1vdZ6BJEcQ/"
        { apiOk := false, embeddedOk := true, frameOk := false, burnedDetected := false,
          ocrOk := false, asrOk := false }).2 ∧
      Tier.ocr ∉ (smart_subtitle_extraction "video.mp4"
        "https://www.bilibili.com/video/BV1vdZ6BJEcQ/"
        { apiOk := false, embeddedOk := true, frameOk := false, burnedDetected := false,
          ocrOk := false, asrOk := false }).2 ∧
      Tier.asr ∉ (smart_subtitle_extraction "video.mp4"
        "https://www.bilibili.com/video/BV1vdZ6BJEcQ/"
        { apiOk := false, embeddedOk := true, frameOk := false, burnedDetected := false,
          ocrOk := false, asrOk := false }).2 ∧
      (smart_subtitle_extraction "video.mp4"
        "https://www.bilibili.com/video/BV1vdZ6BJEcQ/"
        { apiOk := false, embeddedOk := true, frameOk := false, burnedDetected := false,
          ocrOk := false, asrOk := false }).1 = (true, "embedded") := by
  have h := claim_C2 "video.mp4" "https://www.bilibili.com/video/BV1vdZ6BJEcQ/"
    { apiOk := false, embeddedOk := true, frameOk := false, burnedDetected := false,
      ocrOk := false, asrOk := false }
  refine ⟨h.1.mpr (Or.inl (by decide)), (h.2.2.1 rfl).1, (h.2.2.1 rfl).2, ?_⟩
  rw [h.2.2.2.1]
  decide

/-- C6 (confirmed): a segment is handled by the first applicable plan —
sentence spans, then token timestamps, then plain text; a segment with
non-empty stripped text but no sentence spans and no timestamps emits
exactly one block spanning `00:00:00,000 --> 00:00:00,000` (the text is
kept); and the ASR tier succeeds iff at least one block was written across
all segments. -/
theorem claim_C6 :
    (∀ (c : ℕ) (seg : FunSeg), seg.sentence_info = [] → seg.timestamp = [] →
      pystripS seg.text ≠ "" →
      segBlocks c seg = ([{ index := c + 1, startStr := "00:00:00,000",
                            endStr := "00:00:00,000", text := pystripS seg.text }], c + 1)) ∧
    (∀ (c : ℕ) (seg : FunSeg), seg.sentence_info ≠ [] →
      segBlocks c seg = planABlocks c seg.sentence_info) ∧
    (∀ (c : ℕ) (seg : FunSeg), seg.sentence_info = [] → seg.timestamp ≠ [] →
      pystripS seg.text ≠ "" →
      segBlocks c seg = planBBlocks c
        (_split_text_by_punctuation (pystripS seg.text).toList seg.timestamp)) ∧
    (∀ segs : List FunSeg,
      extract_with_funasr_success segs = true ↔ extract_with_funasr_blocks segs ≠ []) := by
  refine ⟨?_, ?_, ?_, extract_success_iff⟩
  · intro c seg h1 h2 h3
    rw [segBlocks, if_neg (by simp [h1]), if_neg (by simp [h2]), if_pos h3]
  · intro c seg h
    rw [segBlocks, if_pos h]
  · intro c seg h1 h2 h3
    rw [segBlocks, if_neg (by simp [h1]), if_pos ⟨h2, h3⟩]

/-- C6 witness: a text-only segment produces exactly one zero-time block
and makes the tier succeed. -/
theorem claim_C6_witness :
    segBlocks 0 { text := "你好", timestamp := [], sentence_info := [] } =
        ([{ index := 1, startStr := "00:00:00,000", endStr := "00:00:00,000",
            text := "你好" }], 1) ∧
      extract_with_funasr_success
        [{ text := "你好", timestamp := [], sentence_info := [] }] = true := by
  refine ⟨?_, ?_⟩
  · exact (claim_C6.1 0 { text := "你好", timestamp := [], sentence_info := [] }
      rfl rfl (by decide)).trans (by decide)
  · exact (claim_C6.2.2.2
      [{ text := "你好", timestamp := [], sentence_info := [] }]).mpr (by decide)

/-- C7 (confirmed): the chain tries yt-dlp over the preference order (the
preferred browser, then the fixed defaults without duplicates), then
browser_cookie3 over the same order, then the configuration fallback; it
returns the first jar with a non-empty SESSDATA, the empty jar when every
attempt fails, and a strategy whose external call raises yields the empty
jar instead of propagating. -/
theorem claim_C7 (p : String) (env : CookieEnv) :
    (browserOrder p
        = p :: (["chrome", "firefox", "edge", "safari"].filter (fun b => b ≠ p)) ∧
      (browserOrder p).Nodup) ∧
      get_bilibili_cookies p env = ((attemptResults p env).find? hasSess).getD [] ∧
      (get_bilibili_cookies p env = [] ↔
        ∀ d ∈ attemptResults p env, hasSess d = false) ∧
      (get_bilibili_cookies p env ≠ [] →
        hasSess (get_bilibili_cookies p env) = true) ∧
      (∀ b, env.ytdlp b = Except.error () → get_cookies_via_ytdlp env b = []) ∧
      (∀ b, env.bc3 b = Except.error () → get_cookies_via_browser_cookie3 env b = []) := by
  refine ⟨browserOrder_spec p, get_bilibili_cookies_eq_first p env, ?_, ?_, ?_, ?_⟩
  · rw [get_bilibili_cookies_eq_first]
    constructor
    · intro h0 a ha
      rcases hb : hasSess a with - | -
      · rfl
      · exfalso
        rcases hexists : (attemptResults p env).find? hasSess with - | d
        · have := List.find?_eq_none.mp hexists a ha
          rw [hb] at this
          exact this rfl
        · have hd : hasSess d = true := List.find?_some hexists
          rw [hexists] at h0
          simp only [Option.getD_some] at h0
          rw [h0] at hd
          simp [hasSess, dictGet] at hd
    · intro hall
      have hnone : (attemptResults p env).find? hasSess = none :=
        List.find?_eq_none.mpr (fun a ha => by simp [hall a ha])
      rw [hnone]
      rfl
  · rw [get_bilibili_cookies_eq_first]
    rcases hf : (attemptResults p env).find? hasSess with - | d
    · intro h0
      exact absurd rfl h0
    · intro _
      exact List.find?_some hf
  · intro b h
    simp [get_cookies_via_ytdlp, h]
  · intro b h
    simp [get_cookies_via_browser_cookie3, h]

/-- C7 witness: with yt-dlp raising for every browser and browser_cookie3
returning a jar with a session token, the chain returns that jar; the
preference order for `edge` is `edge, chrome, firefox, safari`. -/
theorem claim_C7_witness :
    get_bilibili_cookies "edge"
        { ytdlp := fun _ => Except.error (), bc3 := fun _ => Except.ok [("SESSDATA", "tok")],
          envSessdata := "", envBiliJct := "", configFile := none }
        = [("SESSDATA", "tok")] ∧
      browserOrder "edge" = ["edge", "chrome", "firefox", "safari"] ∧
      get_cookies_via_ytdlp
        { ytdlp := fun _ => Except.error (), bc3 := fun _ => Except.ok [("SESSDATA", "tok")],
          envSessdata := "", envBiliJct := "", configFile := none } "chrome" = [] := by
  have h := claim_C7 "edge"
    { ytdlp := fun _ => Except.error (), bc3 := fun _ => Except.ok [("SESSDATA", "tok")],
      envSessdata := "", envBiliJct := "", configFile := none }
  refine ⟨?_, h.1.1.trans (by decide), h.2.2.2.2.1 "chrome" rfl⟩
  rw [h.2.1]
  decide

/-- C8 (confirmed): the texts loop keeps a detection iff its coerced
confidence strictly exceeds 0.7; the string `"0.81"` and the number `0.81`
coerce to the same value and pass the threshold; `"abc"` coerces to the
0.0 fallback and fails it; and a failed parse always coerces to 0.0
instead of raising. -/
theorem claim_C8 :
    (∀ lines : List (Option OcrLine),
      keptTexts lines = ((lines.filterMap id).filter
        (fun l => decide ((7 : ℚ) / 10 < coerceConf l.confidence))).map OcrLine.text) ∧
      coerceConf (ConfVal.str "0.81") = coerceConf (ConfVal.num (81 / 100)) ∧
      (7 : ℚ) / 10 < coerceConf (ConfVal.str "0.81") ∧
      coerceConf (ConfVal.str "abc") = 0 ∧
      ¬ (7 : ℚ) / 10 < coerceConf (ConfVal.str "abc") ∧
      (∀ s : String, parseFloatStr s = none → coerceConf (ConfVal.str s) = 0) := by
  refine ⟨keptTexts_eq_filter, ?_, ?_, ?_, ?_, ?_⟩
  · with_unfolding_all decide
  · with_unfolding_all decide
  · with_unfolding_all decide
  · with_unfolding_all decide
  · intro s h
    simp [coerceConf, h]

/-- C8 witness: the fallback conjunct applied at the non-coercible string
`"abc"`. -/
theorem claim_C8_witness :
    parseFloatStr "abc" = none ∧ coerceConf (ConfVal.str "abc") = 0 := by
  have h1 : parseFloatStr "abc" = none := by with_unfolding_all decide
  exact ⟨h1, claim_C8.2.2.2.2.2 "abc" h1⟩

/-- C9 counterexample: one sampled frame is captured and the OCR call on it
raises; the function returns failure with the frame file created but never
deleted (there is no per-frame `finally`). -/
theorem claim_C9_counterexample :
    (extract_burned_subtitle_ocr
        { duration := 1, capture := fun _ => some "frame0.jpg",
          ocr := fun _ => Except.error () }).1 = false ∧
      "frame0.jpg" ∈ (extract_burned_subtitle_ocr
        { duration := 1, capture := fun _ => some "frame0.jpg",
          ocr := fun _ => Except.error () }).2.1 ∧
      "frame0.jpg" ∉ (extract_burned_subtitle_ocr
        { duration := 1, capture := fun _ => some "frame0.jpg",
          ocr := fun _ => Except.error () }).2.2.1 := by
  refine ⟨?_, ?_, ?_⟩ <;> decide

/-- C9 (amended): on the normal path (no OCR call raises and the function
returns success) every created frame file is deleted; when an OCR call
raises, every created frame is deleted except exactly the one being
processed at the moment of the exception, which leaks. -/
theorem claim_C9 (env : OcrEnv) :
    ((extract_burned_subtitle_ocr env).1 = true →
      (extract_burned_subtitle_ocr env).2.2.1 = (extract_burned_subtitle_ocr env).2.1) ∧
      ((extract_burned_subtitle_ocr env).1 = false →
        ∃ news pth, (extract_burned_subtitle_ocr env).2.1 = news ++ [pth] ∧
          (extract_burned_subtitle_ocr env).2.2.1 = news) := by
  obtain ⟨ht, hf⟩ := ocrLoopGo_cleanup env (sampleTimes env.duration) [] [] []
  constructor
  · intro h
    obtain ⟨news, h1, h2⟩ := ht h
    show (ocrLoopGo env (sampleTimes env.duration) [] [] []).2.2.1
      = (ocrLoopGo env (sampleTimes env.duration) [] [] []).2.1
    rw [h1, h2]
  · intro h
    obtain ⟨news, pth, h1, h2⟩ := hf h
    exact ⟨news, pth, by simpa using h1, by simpa using h2⟩

/-- C9 witness: with OCR succeeding on every frame, the deleted set equals
the created set. -/
theorem claim_C9_witness :
    (extract_burned_subtitle_ocr
        { duration := 2, capture := fun _ => some "f.jpg",
                         ocr := fun _ => Except.ok none }).1 = true ∧
      (extract_burned_subtitle_ocr
        { duration := 2, capture := fun _ => some "f.jpg",
                         ocr := fun _ => Except.ok none }).2.2.1 =
        (extract_burned_subtitle_ocr
          { duration := 2, capture := fun _ => some "f.jpg",
                           ocr := fun _ => Except.ok none }).2.1 :=
  ⟨by decide, (claim_C9 { duration := 2, capture := fun _ => some "f.jpg",
                          ocr := fun _ => Except.ok none }).1 (by decide)⟩

theorem stepsAfterApi_embedded_mem (env : ResolveEnv) (pre : List Tier) :
    Tier.embedded ∈ (stepsAfterApi env pre).2 := by
  rw [stepsAfterApi]
  split_ifs <;> simp [asrStep] <;> split_ifs <;> simp

/-- C10 (confirmed): with the sibling fetch script present, the platform
wrapper reports success iff the subprocess exited 0 and the output file
exists with strictly more than 10 bytes; whenever the platform tier fails,
the resolver goes on to the embedded tier. -/
theorem claim_C10 :
    (∀ env : PlatEnv, env.scriptExists = true →
      (get_bilibili_subtitle env = true ↔
        (env.runResult = Except.ok 0 ∧ env.outExists = true ∧ 10 < env.outSize))) ∧
      (∀ (videoPath videoUrl : String) (renv : ResolveEnv), renv.apiOk = false →
        Tier.embedded ∈ (smart_subtitle_extraction videoPath videoUrl renv).2) := by
  constructor
  · intro env hs
    rw [get_bilibili_subtitle, if_pos hs]
    rcases hr : env.runResult with e | rc
    · simp [hr]
    · simp only [hr, Bool.and_eq_true, decide_eq_true_eq, Except.ok.injEq]
      constructor
      · rintro ⟨⟨h0, h1⟩, h2⟩
        exact ⟨by rw [h0], h1, h2⟩
      · rintro ⟨h0, h1, h2⟩
        exact ⟨⟨h0, h1⟩, h2⟩
  · intro vp vu renv ha
    simp only [smart_subtitle_extraction]
    by_cases hb : (if extract_bvid vu ≠ "" then extract_bvid vu else extract_bvid vp) ≠ ""
    · rw [if_pos hb, if_neg (by simp [ha])]
      exact stepsAfterApi_embedded_mem renv [Tier.api]
    · rw [if_neg hb]
      exact stepsAfterApi_embedded_mem renv []

/-- C10 witness: exit code 0 with an 11-byte output succeeds; exit code 0
with a 10-byte output fails and the resolver reaches the embedded tier. -/
theorem claim_C10_witness :
    get_bilibili_subtitle { scriptExists := true, runResult := Except.ok 0,
                            outExists := true, outSize := 11, simpleFetchOk := false } = true ∧
      get_bilibili_subtitle { scriptExists := true, runResult := Except.ok 0,
                              outExists := true, outSize := 10, simpleFetchOk := false }
        = false ∧
      Tier.embedded ∈ (smart_subtitle_extraction "video.mp4" ""
        { apiOk := false, embeddedOk := false, frameOk := false, burnedDetected := false,
          ocrOk := false, asrOk := false }).2 := by
  refine ⟨?_, ?_, claim_C10.2 "video.mp4" ""
    { apiOk := false, embeddedOk := false, frameOk := false, burnedDetected := false,
      ocrOk := false, asrOk := false } rfl⟩
  · exact (claim_C10.1 _ rfl).mpr ⟨rfl, rfl, by norm_num⟩
  · rcases h : get_bilibili_subtitle { scriptExists := true, runResult := Except.ok 0,
                                        outExists := true, outSize := 10,
                                        simpleFetchOk := false } with - | -
    · rfl
    · have h10 := ((claim_C10.1 _ rfl).mp h).2.2
      simp only [] at h10
      omega
